import Mathlib

/-!
Verification of the next-plugin-llms content-extraction and document-assembly
pipeline. The TypeScript sources are shallowly embedded: strings are Lean
strings (operated on through their character lists so that everything is
executable and kernel-decidable), regex-driven scans are explicit list
recursions with a fuel argument equal to the input length (each step consumes
at least one character, so the fuel never runs out), JavaScript truthiness on
optional strings is an explicit check against the empty string, and external
capabilities (the minimatch glob matcher, the babel parser) are function
parameters.
-/

namespace NextLLMs

/-- Characters of the JavaScript regex class w: letters, digits, underscore. -/
def isWordChar (c : Char) : Bool := c.isAlphanum || c = '_'

/-- JavaScript whitespace class s, restricted to the ASCII whitespace that
the embedded strings use. -/
def isWsChar (c : Char) : Bool := c = ' ' || c = '\t' || c = '\n' || c = '\r'

/-- Length of a string measured in characters, as JavaScript length measures
code units for the ASCII strings involved. -/
def strLen (s : String) : Nat := s.data.length

/-- First n characters of a string: the JavaScript substring(0, n). -/
def strTake (n : Nat) (s : String) : String := ⟨s.data.take n⟩

/-- Join a list of strings with a separator: the JavaScript Array.join. -/
def strIntercalate (sep : String) : List String → String
  | [] => ""
  | [s] => s
  | s :: rest => s ++ sep ++ strIntercalate sep rest

/-- Split a character list at every occurrence of a separator character:
the JavaScript String.split with a one-character separator. -/
def splitChar (sep : Char) : List Char → List (List Char)
  | [] => [[]]
  | c :: rest =>
    match splitChar sep rest with
    | [] => if c = sep then [[], []] else [[c]]
    | g :: gs => if c = sep then [] :: g :: gs else (c :: g) :: gs

/-- Substring containment test: the JavaScript String.includes. -/
def containsList (l pat : List Char) : Bool :=
  l.tails.any (fun t => pat.isPrefixOf t)

/-- Replace the first occurrence of a pattern: the JavaScript String.replace
with a plain string pattern. -/
def replaceFirstList (pat rep : List Char) : List Char → List Char
  | [] => if pat.isPrefixOf ([] : List Char) then rep else []
  | c :: rest =>
    if pat.isPrefixOf (c :: rest) then rep ++ (c :: rest).drop pat.length
    else c :: replaceFirstList pat rep rest

/-- Trim ASCII whitespace from both ends: the JavaScript String.trim. -/
def trimChars (l : List Char) : List Char :=
  ((l.dropWhile isWsChar).reverse.dropWhile isWsChar).reverse

/-- JavaScript truthiness for an optional string: undefined and the empty
string are both falsy. -/
def truthy (o : Option String) : Option String :=
  match o with
  | some s => if s = "" then none else some s
  | none => none

/-! ## Route model (src/types.ts) -/

inductive RouteType where
  | page
  | layout
  | route
deriving DecidableEq, Repr

structure OpenGraphMetadata where
  title : Option String := none
  description : Option String := none
  url : Option String := none
  type : Option String := none
deriving DecidableEq, Repr

structure RouteMetadata where
  title : Option String := none
  description : Option String := none
  keywords : Option (List String) := none
  openGraph : Option OpenGraphMetadata := none
deriving DecidableEq, Repr

structure Heading where
  level : Nat
  text : String
deriving DecidableEq, Repr

structure RouteInfo where
  filePath : String
  urlPath : String
  type : RouteType
  metadata : Option RouteMetadata := none
  content : Option String := none
  headings : Option (List Heading) := none
deriving DecidableEq, Repr

inductive Priority where
  | high
  | medium
  | low
deriving DecidableEq, Repr

/-- A content source rule; the source field named section is renamed to
sectionName because section is a Lean keyword. -/
structure ContentSource where
  pattern : String
  sectionName : String
  priority : Option Priority := none
  description : Option String := none
deriving DecidableEq, Repr

structure ContentItem where
  title : String
  url : String
  description : Option String := none
deriving DecidableEq, Repr

structure CustomSection where
  title : String
  description : Option String := none
  items : List ContentItem := []
deriving DecidableEq, Repr

structure CustomLLMFile where
  filename : String
  title : String
  description : String
  includePatterns : List String
  fullContent : Option Bool := none
  excludePatterns : Option (List String) := none
deriving DecidableEq, Repr

structure ContentOptions where
  stripJsx : Option Bool := none
  preserveMarkdown : Option Bool := none
  includeMetadata : Option Bool := none
  maxContentLength : Option Nat := none
  removeDuplicateHeadings : Option Bool := none
deriving DecidableEq, Repr

structure PluginOptions where
  title : Option String := none
  description : Option String := none
  siteUrl : Option String := none
  sources : Option (List ContentSource) := none
  customSections : Option (List CustomSection) := none
  excludePatterns : Option (List String) := none
deriving DecidableEq, Repr

/-! ## filePathToUrlPath (src/scanner.ts)

Each regex replacement pass is a left-to-right scan: at every position the
pattern is tried; on a match the matched characters are consumed and the
replacement emitted, otherwise one character is emitted and the scan moves
on. The fuel argument starts at the length of the input and decreases by at
least one per consumed character, so it never runs out. -/

/-- Pass 1: normalize path separators, the replacement of every backslash by
a forward slash. -/
def normSep (l : List Char) : List Char :=
  l.map (fun c => if c = '\\' then '/' else c)

/-- Pass 2: remove route groups, the regex that deletes a parenthesized
nonempty group followed by an optional slash. When the pattern does not
match at the current position, one character is emitted and the scan
restarts one position later, exactly as the global regex engine does. -/
def rmGroupsF : Nat → List Char → List Char
  | 0, l => l
  | _ + 1, [] => []
  | fuel + 1, c :: rest =>
    if c = '(' ∧ rest.takeWhile (fun x => x ≠ ')') ≠ [] ∧
        rest.dropWhile (fun x => x ≠ ')') ≠ [] then
      let tail := (rest.dropWhile (fun x => x ≠ ')')).tail
      if tail.head? = some '/' then rmGroupsF fuel tail.tail
      else rmGroupsF fuel tail
    else c :: rmGroupsF fuel rest

/-- Pass 3: convert an optional catch-all segment, two brackets, three dots,
one or more word characters, two closing brackets, into a colon-named
parameter. -/
def optCatchAllF : Nat → List Char → List Char
  | 0, l => l
  | _ + 1, [] => []
  | fuel + 1, c :: rest =>
    if c = '[' ∧ "[...".data.isPrefixOf rest ∧
        (rest.drop 4).takeWhile isWordChar ≠ [] ∧
        "]]".data.isPrefixOf ((rest.drop 4).dropWhile isWordChar) then
      ':' :: (rest.drop 4).takeWhile isWordChar ++
        optCatchAllF fuel (((rest.drop 4).dropWhile isWordChar).drop 2)
    else c :: optCatchAllF fuel rest

/-- Pass 4: convert a catch-all segment, one bracket, three dots, one or
more word characters, a closing bracket, into a star. -/
def catchAllF : Nat → List Char → List Char
  | 0, l => l
  | _ + 1, [] => []
  | fuel + 1, c :: rest =>
    if c = '[' ∧ "...".data.isPrefixOf rest ∧
        (rest.drop 3).takeWhile isWordChar ≠ [] ∧
        "]".data.isPrefixOf ((rest.drop 3).dropWhile isWordChar) then
      '*' :: catchAllF fuel (((rest.drop 3).dropWhile isWordChar).drop 1)
    else c :: catchAllF fuel rest

/-- Pass 5: convert a dynamic segment, a bracketed nonempty run of
non-bracket characters, into a colon-named parameter. -/
def dynamicF : Nat → List Char → List Char
  | 0, l => l
  | _ + 1, [] => []
  | fuel + 1, c :: rest =>
    if c = '[' ∧ rest.takeWhile (fun x => x ≠ ']') ≠ [] ∧
        rest.dropWhile (fun x => x ≠ ']') ≠ [] then
      ':' :: rest.takeWhile (fun x => x ≠ ']') ++
        dynamicF fuel ((rest.dropWhile (fun x => x ≠ ']')).drop 1)
    else c :: dynamicF fuel rest

/-- The final two steps of filePathToUrlPath: ensure a leading slash, then
map the slash-only or empty result to the root URL. -/
def finishUrl (l4 : List Char) : String :=
  let l5 := if l4.head? = some '/' then l4 else '/' :: l4
  if l5 = ['/'] || l5 = ([] : List Char) then "/" else ⟨l5⟩

/-- filePathToUrlPath from src/scanner.ts: separator normalization, group
removal, optional catch-all, catch-all, then dynamic segments, a leading
slash is ensured, and a final root check maps the slash-only or empty
result to the root URL. -/
def filePathToUrlPath (filePath : String) : String :=
  let l0 := normSep filePath.data
  let l1 := rmGroupsF l0.length l0
  let l2 := optCatchAllF l1.length l1
  let l3 := catchAllF l2.length l2
  let l4 := dynamicF l3.length l3
  finishUrl l4

/-! ## buildUrl (identical in src/generator.ts and src/per-page-generator.ts) -/

/-- Strip one trailing slash from the site URL: the slice applied when the
base ends with a slash, equivalently the regex replacing one trailing
slash. -/
def stripTrailingSlash (s : String) : String :=
  if s.data.getLast? = some '/' then ⟨s.data.dropLast⟩ else s

/-- Give the path a leading slash when it lacks one. -/
def ensureLeadingSlash (s : String) : String :=
  if s.data.head? = some '/' then s else ⟨'/' :: s.data⟩

/-- buildUrl: without a truthy site URL the route path is used verbatim;
otherwise one trailing slash is stripped from the base and the path is
given a leading slash before concatenation. -/
def buildUrl (urlPath : String) (siteUrl : Option String) : String :=
  match truthy siteUrl with
  | none => urlPath
  | some b => stripTrailingSlash b ++ ensureLeadingSlash urlPath

/-! ## Route handler wrappers (src/generator.ts and src/per-page-generator.ts) -/

/-- One global single-character replacement: the JavaScript String.replace
with a global one-character pattern. -/
def escChar (c : Char) (rep : List Char) : List Char → List Char
  | [] => []
  | x :: r => (if x = c then rep else [x]) ++ escChar c rep r

/-- The backtick character, written by code point. -/
def backtick : Char := Char.ofNat 96

/-- The escaping performed by createRouteHandlerContent in
src/per-page-generator.ts: backslashes first, then backticks, then dollar
signs, each prefixed with a backslash. -/
def escAllChars (l : List Char) : List Char :=
  escChar '$' ['\\', '$'] (escChar backtick ['\\', backtick]
    (escChar '\\' ['\\', '\\'] l))

def escapeTemplateText (s : String) : String := ⟨escAllChars s.data⟩

/-- The escaping performed inline by generateRouteHandlerFile in
src/generator.ts: only backticks are escaped. -/
def escapeBackticksOnly (s : String) : String :=
  ⟨escChar backtick ['\\', backtick] s.data⟩

/-- What one source character becomes under escAllChars. -/
def escapeOne (c : Char) : List Char :=
  if c = '\\' ∨ c = backtick ∨ c = '$' then ['\\', c] else [c]

/-- Un-escaping of a template-literal body: a backslash makes the following
character literal. This is how the embedded body reads back when the
generated handler code is evaluated. -/
def unescapeTemplate : List Char → List Char
  | [] => []
  | [c] => [c]
  | c :: d :: rest =>
    if c = '\\' then d :: unescapeTemplate rest
    else c :: unescapeTemplate (d :: rest)

def unescapeTemplateStr (s : String) : String := ⟨unescapeTemplate s.data⟩

/-- The fixed handler text before the embedded body, shared by both
generators. -/
def handlerHead : String :=
  "export const dynamic = \x27force-static\x27;\n\nexport function GET() \x7b\n  const markdown = \x60"

/-- The fixed handler text after the embedded body in
src/per-page-generator.ts, which serves markdown. -/
def handlerTailMd : String :=
  "\x60;\n\n  return new Response(markdown, \x7b\n    headers: \x7b\n      \x27Content-Type\x27: \x27text/markdown; charset=utf-8\x27,\n    \x7d,\n  \x7d);\n\x7d\n"

/-- The fixed handler text after the embedded body in src/generator.ts,
which serves plain text. -/
def handlerTailPlain : String :=
  "\x60;\n\n  return new Response(markdown, \x7b\n    headers: \x7b\n      \x27Content-Type\x27: \x27text/plain; charset=utf-8\x27,\n    \x7d,\n  \x7d);\n\x7d\n"

/-- createRouteHandlerContent from src/per-page-generator.ts. -/
def createRouteHandlerContent (markdownContent : String) : String :=
  handlerHead ++ escapeTemplateText markdownContent ++ handlerTailMd

/-- generateRouteHandlerFile from src/generator.ts. -/
def generateRouteHandlerFile (content : String) : String :=
  handlerHead ++ escapeBackticksOnly content ++ handlerTailPlain

/-! ## filterRoutesForCustomFile (src/generator.ts) -/

/-- filterRoutesForCustomFile: a route is kept exactly when its file path
contains, as a plain substring, some include pattern with its first
globstar occurrence removed. Exclude patterns are never consulted. -/
def filterRoutesForCustomFile (routes : List RouteInfo)
    (customFile : CustomLLMFile) : List RouteInfo :=
  routes.filter (fun route =>
    customFile.includePatterns.any (fun pattern =>
      containsList route.filePath.data
        (replaceFirstList "**".data [] pattern.data)))

/-- A route inside a directory that the exclude pattern of
includeEqualsExcludeFile names. -/
def secretRoute : RouteInfo :=
  { filePath := "/my-project/app/products/secret/page.tsx"
    urlPath := "/products/secret"
    type := RouteType.page }

/-- A custom file whose exclude patterns equal its include patterns, so
under the claimed semantics it selects no route at all. -/
def includeEqualsExcludeFile : CustomLLMFile :=
  { filename := "llms-products.txt"
    title := "Products"
    description := "Product docs"
    includePatterns := ["app/products/**"]
    excludePatterns := some ["app/products/**"] }

/-- The same custom file without exclude patterns. -/
def includeOnlyFile : CustomLLMFile :=
  { filename := "llms-products.txt"
    title := "Products"
    description := "Product docs"
    includePatterns := ["app/products/**"]
    excludePatterns := none }

/-! ## Content processing (src/content-processor.ts) -/

/-- Join a list of character lists with a separator character. -/
def joinChar (sep : Char) : List (List Char) → List Char
  | [] => []
  | [g] => g
  | g :: gs => g ++ sep :: joinChar sep gs

/-- Collapse three or more consecutive newlines to exactly two: the first
whitespace cleanup of processContent. -/
def collapseNewlinesF : Nat → List Char → List Char
  | 0, l => l
  | _ + 1, [] => []
  | fuel + 1, c :: rest =>
    if c = '\n' ∧ 2 ≤ (rest.takeWhile (fun x => x = '\n')).length then
      '\n' :: '\n' :: collapseNewlinesF fuel (rest.dropWhile (fun x => x = '\n'))
    else c :: collapseNewlinesF fuel rest

/-- Collapse every run of two or more whitespace characters to one space:
the second whitespace cleanup of processContent. The JavaScript whitespace
class includes the newline, so this also rewrites blank-line separators. -/
def collapseWsF : Nat → List Char → List Char
  | 0, l => l
  | _ + 1, [] => []
  | fuel + 1, c :: rest =>
    if isWsChar c ∧ rest.takeWhile isWsChar ≠ [] then
      ' ' :: collapseWsF fuel (rest.dropWhile isWsChar)
    else c :: collapseWsF fuel rest

/-- The join and whitespace cleanup applied to the fragments collected from
the syntax tree, before truncation. -/
def postProcessExtracted (extractedText : List String) : String :=
  let j := (strIntercalate "\n\n" extractedText).data
  let j1 := collapseNewlinesF j.length j
  ⟨collapseWsF j1.length j1⟩

/-- Detect a line removed by the import-stripping regex: the line starts
with the word import followed by at least one whitespace character. -/
def matchesImportLine (l : List Char) : Bool :=
  "import".data.isPrefixOf l &&
    (match l.drop 6 with
     | c :: _ => isWsChar c
     | [] => false)

/-- Blank out every import line, keeping the line structure. -/
def removeImportLines (l : List Char) : List Char :=
  joinChar '\n' ((splitChar '\n' l).map
    (fun ln => if matchesImportLine ln then [] else ln))

/-- Find the first occurrence of a pattern, returning the text before it
and the text after it. -/
def breakAtSub (pat : List Char) : List Char → Option (List Char × List Char)
  | [] => if pat.isPrefixOf ([] : List Char) then some ([], []) else none
  | c :: rest =>
    if pat.isPrefixOf (c :: rest) then some ([], (c :: rest).drop pat.length)
    else
      match breakAtSub pat rest with
      | some (pre, post) => some (c :: pre, post)
      | none => none

/-- Remove block comments: from each comment opener to the nearest closer;
an unterminated opener is left in place, as the lazy regex leaves it. -/
def rmBlockCommentsF : Nat → List Char → List Char
  | 0, l => l
  | _ + 1, [] => []
  | fuel + 1, c :: rest =>
    if c = '/' ∧ rest.head? = some '*' then
      match breakAtSub ['*', '/'] rest.tail with
      | some (_, post) => rmBlockCommentsF fuel post
      | none => c :: rmBlockCommentsF fuel rest
    else c :: rmBlockCommentsF fuel rest

/-- Remove line comments: from a double slash to the end of the line. -/
def rmLineCommentsF : Nat → List Char → List Char
  | 0, l => l
  | _ + 1, [] => []
  | fuel + 1, c :: rest =>
    if c = '/' ∧ rest.head? = some '/' then
      rmLineCommentsF fuel (rest.dropWhile (fun x => x ≠ '\n'))
    else c :: rmLineCommentsF fuel rest

/-- The single-quote character, written by code point. -/
def squote : Char := Char.ofNat 39

/-- The quote characters recognized by the fallback string-extraction
regex. -/
def quoteChars : List Char := [squote, '"', backtick]

/-- Extract the bodies of all quoted strings, already stripped of their
quotes as the slice in the source does; an unclosed quote matches
nothing. -/
def extractQuotedF : Nat → List Char → List (List Char)
  | 0, _ => []
  | _ + 1, [] => []
  | fuel + 1, c :: rest =>
    if c ∈ quoteChars ∧ rest.dropWhile (fun x => x ≠ c) ≠ [] then
      rest.takeWhile (fun x => x ≠ c) ::
        extractQuotedF fuel ((rest.dropWhile (fun x => x ≠ c)).drop 1)
    else extractQuotedF fuel rest

/-- The fallback extraction before truncation: strip import lines, block
comments and line comments, collect quoted string bodies, drop the ones
that trim to nothing, and join with blank lines. -/
def fallbackExtractedText (content : String) : String :=
  let p1 := removeImportLines content.data
  let p2 := rmBlockCommentsF p1.length p1
  let p3 := rmLineCommentsF p2.length p2
  let strs := extractQuotedF p3.length p3
  strIntercalate "\n\n"
    ((strs.filter (fun s => trimChars s ≠ [])).map (fun s => (⟨s⟩ : String)))

/-- fallbackContentExtraction from src/content-processor.ts: the regex
fallback with the same hard-character-count truncation rule. -/
def fallbackContentExtraction (content : String) (options : ContentOptions) :
    String :=
  if strLen (fallbackExtractedText content) > options.maxContentLength.getD 50000
  then strTake (options.maxContentLength.getD 50000)
      (fallbackExtractedText content) ++ "..."
  else fallbackExtractedText content

/-- processContent from src/content-processor.ts. The babel parse and
syntax-tree traversal is the astExtract capability: it returns the list of
nonempty trimmed fragments in document order, or none on parse failure,
which triggers the regex fallback. -/
def processContent (astExtract : String → Option (List String))
    (content : String) (options : ContentOptions) : String :=
  match astExtract content with
  | some extractedText =>
    if strLen (postProcessExtracted extractedText)
        > options.maxContentLength.getD 50000
    then strTake (options.maxContentLength.getD 50000)
        (postProcessExtracted extractedText) ++ "..."
    else postProcessExtracted extractedText
  | none => fallbackContentExtraction content options

/-- extractPageContent: the filesystem is a lookup from path to file text;
a missing file yields no content, without an error. -/
def extractPageContent (astExtract : String → Option (List String))
    (files : String → Option String) (routeInfo : RouteInfo)
    (options : ContentOptions) : Option String :=
  match files routeInfo.filePath with
  | none => none
  | some content => some (processContent astExtract content options)

/-- extractHeadings: the heading walk over the parse tree is the parseH
capability; a parse failure or a missing file yields the empty list. -/
def extractHeadings (parseH : String → Option (List Heading))
    (files : String → Option String) (routeInfo : RouteInfo) : List Heading :=
  match files routeInfo.filePath with
  | none => []
  | some content => (parseH content).getD []

/-- enrichRoutesWithContent: every route is enriched independently and the
pipeline continues past routes with missing files. -/
def enrichRoutesWithContent (astExtract : String → Option (List String))
    (parseH : String → Option (List Heading))
    (files : String → Option String) (routes : List RouteInfo)
    (options : ContentOptions) : List RouteInfo :=
  routes.map (fun route =>
    { route with
      content := extractPageContent astExtract files route options
      headings := some (extractHeadings parseH files route) })

/-- formatContentForLLM: the markdown-style heading block when headings are
present, followed by the content when it is truthy. -/
def formatContentForLLM (route : RouteInfo) : String :=
  let headingParts : List String :=
    match route.headings with
    | some hs =>
      if hs.length > 0 then
        hs.map (fun h =>
          (⟨List.replicate h.level '#'⟩ : String) ++ " " ++ h.text)
      else []
    | none => []
  let contentParts : List String :=
    match truthy route.content with
    | some c => [c]
    | none => []
  strIntercalate "\n\n" (headingParts ++ contentParts)

/-! ## getRouteHandlerPath (src/per-page-generator.ts) -/

/-- Node-style dirname over slash-separated paths: everything before the
last slash, a dot when there is no slash, a single slash when the only
slash is leading. -/
def dirname (p : String) : String :=
  match p.data.reverse.dropWhile (fun c => c ≠ '/') with
  | [] => "."
  | [_] => "/"
  | _ :: rest => ⟨rest.reverse⟩

/-- Node path.relative restricted to the shapes this pipeline produces: the
empty string when the two paths are equal, the suffix after the separator
when the target lies beneath the base, and the target itself otherwise. -/
def pathRelative (fromPath toPath : String) : String :=
  if toPath = fromPath then ""
  else if (fromPath ++ "/").data.isPrefixOf toPath.data then
    ⟨toPath.data.drop ((fromPath ++ "/").data.length)⟩
  else toPath

/-- Node path.join over slash-separated paths for the clean segments this
pipeline produces: empty parts vanish and exactly one slash separates the
rest. -/
def joinPath (a b : String) : String :=
  if a = "" then b
  else if b = "" then a
  else if a.data.getLast? = some '/' then a ++ b
  else a ++ "/" ++ b

/-- getRouteHandlerPath from src/per-page-generator.ts: the route directory
relative to the app directory, grouping segments removed by the same
parenthesis regex as the URL derivation, the empty or dot remainder mapped
to the literal index.html.md directory, and otherwise the final segment
turned into a segment.html.md directory holding route.ts. -/
def getRouteHandlerPath (route : RouteInfo) (appDir : String) : String :=
  let routeDir := dirname route.filePath
  let relativePath := pathRelative appDir routeDir
  let pathWithoutGroups : String :=
    ⟨rmGroupsF relativePath.data.length relativePath.data⟩
  if pathWithoutGroups = "" ∨ pathWithoutGroups = "." then
    joinPath (joinPath appDir "index.html.md") "route.ts"
  else
    let segments := splitChar '/' pathWithoutGroups.data
    let lastSegment : List Char := (segments.getLast?).getD []
    let parentPath := segments.dropLast
    let htmlMdDir :=
      if parentPath.length > 0 then
        joinPath (joinPath appDir ⟨joinChar '/' parentPath⟩)
          ((⟨lastSegment⟩ : String) ++ ".html.md")
      else joinPath appDir ((⟨lastSegment⟩ : String) ++ ".html.md")
    joinPath htmlMdDir "route.ts"

/-! ## sortRoutesByPriority (src/scanner.ts) -/

/-- Strip the working directory and then one leading slash from a file
path: the relative-path normalization applied before pattern matching. -/
def relativeToCwd (cwd : String) (filePath : String) : String :=
  match replaceFirstList cwd.data [] filePath.data with
  | '/' :: rest => ⟨rest⟩
  | r => ⟨r⟩

/-- The minimatch test with the globstar-prefixed fallback, applied to one
route and one content source; the glob matcher itself is the external
minimatch capability. -/
def matchesSource (m : String → String → Bool) (cwd : String)
    (route : RouteInfo) (source : ContentSource) : Bool :=
  m (relativeToCwd cwd route.filePath) source.pattern ||
    m (relativeToCwd cwd route.filePath) ("**/" ++ source.pattern)

/-- The numeric tier map: high three, medium two, low one. -/
def priorityMap : Priority → Nat
  | Priority.high => 3
  | Priority.medium => 2
  | Priority.low => 1

/-- The priority a route carries inside the sort comparator: the scan over
all sources assigns the tier of every matching source in turn, so the last
matching source wins, and a route matching nothing keeps the medium default
of two. -/
def routePriority (m : String → String → Bool) (cwd : String)
    (sources : List ContentSource) (route : RouteInfo) : Nat :=
  sources.foldl
    (fun acc s =>
      if matchesSource m cwd route s then priorityMap (s.priority.getD Priority.medium)
      else acc)
    2

/-- Lexicographic comparison of character lists: the embedding of the
string comparison used for the alphabetical tie-break. -/
def lexLeChars : List Char → List Char → Bool
  | [], _ => true
  | _ :: _, [] => false
  | a :: as, b :: bs => if a = b then lexLeChars as bs else decide (a < b)

def lexLe (a b : String) : Bool := lexLeChars a.data b.data

/-- The sort comparator of sortRoutesByPriority: a route may precede
another when its priority is strictly higher, or the priorities tie and its
URL path is lexicographically no greater. -/
def routeLe (m : String → String → Bool) (cwd : String)
    (sources : List ContentSource) (a b : RouteInfo) : Bool :=
  decide (routePriority m cwd sources b < routePriority m cwd sources a) ||
    (decide (routePriority m cwd sources b = routePriority m cwd sources a) &&
      lexLe a.urlPath b.urlPath)

/-- sortRoutesByPriority from src/scanner.ts, as the stable merge sort the
JavaScript sort guarantees under this comparator. -/
def sortRoutesByPriority (m : String → String → Bool) (cwd : String)
    (routes : List RouteInfo) (options : PluginOptions) : List RouteInfo :=
  routes.mergeSort (routeLe m cwd (options.sources.getD []))

/-! ## groupRoutesBySection (src/scanner.ts)

The insertion-ordered JavaScript Map is an association list: set replaces
the value in place when the key exists and appends otherwise, and the push
into an existing bucket appends to the value at the key. -/

def mapGet (sections : List (String × List RouteInfo)) (k : String) :
    Option (List RouteInfo) :=
  (sections.find? (fun p => p.1 == k)).map (fun p => p.2)

def mapSet (sections : List (String × List RouteInfo)) (k : String)
    (v : List RouteInfo) : List (String × List RouteInfo) :=
  if sections.any (fun p => p.1 == k) then
    sections.map (fun p => if p.1 == k then (k, v) else p)
  else sections ++ [(k, v)]

def mapPush (sections : List (String × List RouteInfo)) (k : String)
    (r : RouteInfo) : List (String × List RouteInfo) :=
  sections.map (fun p => if p.1 == k then (p.1, p.2 ++ [r]) else p)

/-- The section a route lands in: the first content source whose pattern
matches in declaration order, else the default Pages section. -/
def sectionOf (m : String → String → Bool) (cwd : String)
    (sources : List ContentSource) (route : RouteInfo) : String :=
  match sources.find? (fun s => matchesSource m cwd route s) with
  | some s => s.sectionName
  | none => "Pages"

/-- groupRoutesBySection from src/scanner.ts: the Pages bucket first, one
bucket per content source, every route pushed into the bucket of its first
matching source or into Pages, and empty buckets removed at the end. -/
def groupRoutesBySection (m : String → String → Bool) (cwd : String)
    (routes : List RouteInfo) (options : PluginOptions) :
    List (String × List RouteInfo) :=
  let init := (options.sources.getD []).foldl
    (fun acc s => mapSet acc s.sectionName []) [("Pages", [])]
  let assigned := routes.foldl
    (fun acc route =>
      mapPush acc (sectionOf m cwd (options.sources.getD []) route) route)
    init
  assigned.filter (fun p => !p.2.isEmpty)

/-! ## scanAppDirectory (src/scanner.ts)

The filesystem capability is a finite tree; paths are segment lists, so the
path join and relative operations of the scanner are list append and drop. -/

inductive FsNode where
  | file (content : String)
  | dir (entries : List (String × FsNode))

/-- Walk a path through the tree: the existence check existsSync is this
lookup returning some node. -/
def lookupFs : FsNode → List String → Option FsNode
  | node, [] => some node
  | FsNode.file _, _ :: _ => none
  | FsNode.dir entries, seg :: rest =>
    match entries.find? (fun e => e.1 == seg) with
    | some e => lookupFs e.2 rest
    | none => none

mutual

/-- Size of a filesystem node, the fuel bound for the directory walk. -/
def fsSizeNode : FsNode → Nat
  | FsNode.file _ => 1
  | FsNode.dir entries => 1 + fsSizeEntries entries

/-- Size of a directory listing. -/
def fsSizeEntries : List (String × FsNode) → Nat
  | [] => 0
  | e :: rest => 1 + fsSizeNode e.2 + fsSizeEntries rest

end

/-- The always-applied default exclusion patterns of shouldExclude. -/
def defaultExclusions : List String :=
  ["**/api/**", "**/_*/**", "**/_*.tsx", "**/_*.ts", "**/route.ts",
    "**/.*", "**/node_modules/**"]

/-- shouldExclude from src/scanner.ts, over the external minimatch
capability. -/
def shouldExclude (m : String → String → Bool) (relativePath : String)
    (excludePatterns : List String) : Bool :=
  (defaultExclusions ++ excludePatterns).any (fun pattern => m relativePath pattern)

/-- The five file names the directory walk recognizes. -/
def isProcessedFile (name : String) : Bool :=
  name == "page.tsx" || name == "page.ts" || name == "layout.tsx" ||
    name == "layout.ts" || name == "route.ts"

/-- The path relative to the app directory, joined with forward slashes. -/
def relFromApp (appLen : Nat) (fullPath : List String) : String :=
  strIntercalate "/" (fullPath.drop appLen)

/-- createRouteInfo from src/scanner.ts: the absolute file path, the URL
derived from the directory relative to the app directory, and the type tag
from the file-name prefix. -/
def createRouteInfo (fullPath : List String) (appLen : Nat)
    (fileName : String) : RouteInfo :=
  { filePath := "/" ++ strIntercalate "/" fullPath
    urlPath := filePathToUrlPath (relFromApp appLen fullPath.dropLast)
    type :=
      if "page".data.isPrefixOf fileName.data then RouteType.page
      else if "layout".data.isPrefixOf fileName.data then RouteType.layout
      else RouteType.route }

/-- The recursive directory walk of scanDirectory: excluded entries are
skipped entirely, group directories and ordinary directories are both
recursed into (the group convention only affects the derived URL), and only
page files are emitted as routes. The fuel starts at the tree size, an
upper bound on the steps the walk can take. -/
def scanEntriesF (m : String → String → Bool) (options : PluginOptions)
    (appLen : Nat) :
    Nat → List String → List (String × FsNode) → List RouteInfo
  | 0, _, _ => []
  | _ + 1, _, [] => []
  | fuel + 1, curPath, (name, node) :: rest =>
    let fullPath := curPath ++ [name]
    if shouldExclude m (relFromApp appLen fullPath)
        (options.excludePatterns.getD []) then
      scanEntriesF m options appLen fuel curPath rest
    else
      match node with
      | FsNode.dir es =>
        scanEntriesF m options appLen fuel fullPath es ++
          scanEntriesF m options appLen fuel curPath rest
      | FsNode.file _ =>
        (if isProcessedFile name then
          (if "page.".data.isPrefixOf name.data then
            [createRouteInfo fullPath appLen name]
          else [])
        else []) ++ scanEntriesF m options appLen fuel curPath rest

/-- scanAppDirectory from src/scanner.ts: a missing root directory yields
the empty route list without an error; a root that is a file makes the
directory listing throw, which is the fatal discovery failure. -/
def scanAppDirectory (m : String → String → Bool) (fsRoot : FsNode)
    (appDir : List String) (options : PluginOptions) :
    Except String (List RouteInfo) :=
  match lookupFs fsRoot appDir with
  | none => Except.ok []
  | some (FsNode.file _) => Except.error "ENOTDIR"
  | some (FsNode.dir entries) =>
    Except.ok (scanEntriesF m options appDir.length (fsSizeEntries entries)
      appDir entries)

/-! ## Derived metadata accessors (src/metadata-extractor.ts) -/

/-- getBestTitle: the truthy metadata title with any pipe-suffixed template
remainder removed and the result trimmed, else the truthy open-graph title,
else the capitalized hyphen-split last URL segment, else Home at the
root. -/
def getBestTitle (route : RouteInfo) : String :=
  match truthy (route.metadata.bind (fun md => md.title)) with
  | some t => ⟨trimChars (t.data.takeWhile (fun c => c ≠ '|'))⟩
  | none =>
    match truthy (route.metadata.bind
        (fun md => md.openGraph.bind (fun og => og.title))) with
    | some t => t
    | none =>
      let segments :=
        (splitChar '/' route.urlPath.data).filter (fun s => s.length > 0)
      match segments.getLast? with
      | none => "Home"
      | some lastSegment =>
        strIntercalate " " ((splitChar '-' lastSegment).map (fun w =>
          match w with
          | [] => ""
          | c :: cs => (⟨c.toUpper :: cs⟩ : String)))

/-- getBestDescription: the truthy metadata description, else the truthy
open-graph description, else nothing. -/
def getBestDescription (route : RouteInfo) : Option String :=
  match truthy (route.metadata.bind (fun md => md.description)) with
  | some d => some d
  | none =>
    truthy (route.metadata.bind
      (fun md => md.openGraph.bind (fun og => og.description)))

/-! ## generateLLMsFullTxt (src/generator.ts) -/

/-- groupBySection from src/generator.ts: buckets from the sources first,
then a Pages bucket when absent, assignment by first substring match of the
pattern with its first globstar removed against the file path, and empty
buckets removed. -/
def groupBySection (routes : List RouteInfo) (options : PluginOptions) :
    List (String × List RouteInfo) :=
  let init0 := (options.sources.getD []).foldl
    (fun acc s => mapSet acc s.sectionName []) []
  let init := if init0.any (fun p => p.1 == "Pages") then init0
    else init0 ++ [("Pages", [])]
  let assigned := routes.foldl
    (fun acc route =>
      match (options.sources.getD []).find? (fun source =>
          containsList route.filePath.data
            (replaceFirstList "**".data [] source.pattern.data)) with
      | some source =>
        mapSet acc source.sectionName
          ((mapGet acc source.sectionName).getD [] ++ [route])
      | none =>
        mapSet acc "Pages" ((mapGet acc "Pages").getD [] ++ [route]))
    init
  assigned.filter (fun p => !p.2.isEmpty)

/-- The lines generateLLMsFullTxt pushes for one route: the level-three
title, the URL line, the description paragraph when present, and the
formatted content block only when the content is truthy, each block
followed by the blank line and the whole entry closed by the separator. -/
def routeEntryParts (options : PluginOptions) (route : RouteInfo) :
    List String :=
  ["### " ++ getBestTitle route, "",
    "URL: " ++ buildUrl route.urlPath options.siteUrl, ""]
  ++ (match getBestDescription route with
      | some d => [d, ""]
      | none => [])
  ++ (match truthy route.content with
      | some _ => [formatContentForLLM route, ""]
      | none => [])
  ++ ["---", ""]

/-- The lines generateLLMsFullTxt pushes for one custom section item. -/
def customItemParts (item : ContentItem) : List String :=
  ["### " ++ item.title, "", "URL: " ++ item.url, ""]
  ++ (match truthy item.description with
      | some d => [d, ""]
      | none => [])
  ++ ["---", ""]

/-- The lines generateLLMsFullTxt pushes for one custom section. -/
def customSectionParts (sec : CustomSection) : List String :=
  ["## " ++ sec.title, ""]
  ++ (match truthy sec.description with
      | some d => [d, ""]
      | none => [])
  ++ sec.items.flatMap customItemParts

/-- generateLLMsFullTxt from src/generator.ts: header, optional block
quote, the fixed aggregation notice, a separator, the grouped route
entries, then the custom sections, joined with newlines. -/
def generateLLMsFullTxt (routes : List RouteInfo) (options : PluginOptions) :
    String :=
  strIntercalate "\n"
    ((["# " ++ (truthy options.title).getD "Documentation", ""]
      ++ (match truthy options.description with
          | some d => ["> " ++ d, ""]
          | none => [])
      ++ ["This file contains all documentation content in a single document following the llmstxt.org standard.",
          "", "---", ""])
      ++ (groupBySection routes options).flatMap
          (fun st => ["## " ++ st.1, ""] ++ st.2.flatMap (routeEntryParts options))
      ++ (options.customSections.getD []).flatMap customSectionParts)

/-- A content source used by the grouping witness. -/
def productsSource : ContentSource :=
  { pattern := "products/**"
    sectionName := "Products"
    priority := some Priority.high }

/-- Options carrying the grouping witness source. -/
def groupingOptions : PluginOptions := { sources := some [productsSource] }

/-- A concrete stand-in for the minimatch capability in witnesses: substring
containment of the pattern with its first globstar removed. -/
def substrMatcher : String → String → Bool := fun rel pat =>
  containsList rel.data (replaceFirstList "**".data [] pat.data)

/-- A route carrying headings but no content: the digest must not show its
heading block. -/
def headingOnlyRoute : RouteInfo :=
  { filePath := "/my-project/app/about/page.tsx"
    urlPath := "/about"
    type := RouteType.page
    headings := some [{ level := 1, text := "Secret Heading" }]
    content := none }

end NextLLMs

namespace NextLLMs

/-! ## Backslash-freedom of the URL derivation -/

theorem normSep_no_bs (l : List Char) : '\\' ∉ normSep l := by
  intro h
  rw [normSep, List.mem_map] at h
  obtain ⟨c, _, hc⟩ := h
  by_cases h2 : c = '\\' <;> simp [h2] at hc

theorem rmGroupsF_no_bs (n : Nat) :
    ∀ l : List Char, '\\' ∉ l → '\\' ∉ rmGroupsF n l := by
  induction n with
  | zero => intro l h; exact h
  | succ n ih =>
    intro l h
    cases l with
    | nil => simp [rmGroupsF]
    | cons c rest =>
      have hrest : '\\' ∉ rest := fun hm => h (List.mem_cons_of_mem _ hm)
      have hc : c ≠ '\\' := fun he => h (he ▸ List.mem_cons_self c rest)
      have hdw : '\\' ∉ (rest.dropWhile (fun x => x ≠ ')')) :=
        fun hm => hrest ((List.dropWhile_sublist _).subset hm)
      have htail : '\\' ∉ (rest.dropWhile (fun x => x ≠ ')')).tail :=
        fun hm => hdw ((List.tail_sublist _).subset hm)
      rw [rmGroupsF]
      split
      · dsimp only
        split
        · exact ih _ (fun hm => htail ((List.tail_sublist _).subset hm))
        · exact ih _ htail
      · intro hm
        rcases List.mem_cons.mp hm with h1 | h2
        · exact hc h1.symm
        · exact ih _ hrest h2

theorem optCatchAllF_no_bs (n : Nat) :
    ∀ l : List Char, '\\' ∉ l → '\\' ∉ optCatchAllF n l := by
  induction n with
  | zero => intro l h; exact h
  | succ n ih =>
    intro l h
    cases l with
    | nil => simp [optCatchAllF]
    | cons c rest =>
      have hrest : '\\' ∉ rest := fun hm => h (List.mem_cons_of_mem _ hm)
      have hc : c ≠ '\\' := fun he => h (he ▸ List.mem_cons_self c rest)
      have hdrop : '\\' ∉ rest.drop 4 :=
        fun hm => hrest ((List.drop_sublist _ _).subset hm)
      have htw : '\\' ∉ (rest.drop 4).takeWhile isWordChar :=
        fun hm => hdrop ((List.takeWhile_sublist _).subset hm)
      have hdw : '\\' ∉ ((rest.drop 4).dropWhile isWordChar).drop 2 :=
        fun hm => hdrop ((List.dropWhile_sublist _).subset
          ((List.drop_sublist _ _).subset hm))
      rw [optCatchAllF]
      split
      · intro hm
        rcases List.mem_cons.mp hm with h1 | h2
        · exact absurd h1 (by decide)
        · rcases List.mem_append.mp h2 with h3 | h4
          · exact htw h3
          · exact ih _ hdw h4
      · intro hm
        rcases List.mem_cons.mp hm with h1 | h2
        · exact hc h1.symm
        · exact ih _ hrest h2

theorem catchAllF_no_bs (n : Nat) :
    ∀ l : List Char, '\\' ∉ l → '\\' ∉ catchAllF n l := by
  induction n with
  | zero => intro l h; exact h
  | succ n ih =>
    intro l h
    cases l with
    | nil => simp [catchAllF]
    | cons c rest =>
      have hrest : '\\' ∉ rest := fun hm => h (List.mem_cons_of_mem _ hm)
      have hc : c ≠ '\\' := fun he => h (he ▸ List.mem_cons_self c rest)
      have hdw : '\\' ∉ ((rest.drop 3).dropWhile isWordChar).drop 1 :=
        fun hm => hrest ((List.drop_sublist _ _).subset
          ((List.dropWhile_sublist _).subset ((List.drop_sublist _ _).subset hm)))
      rw [catchAllF]
      split
      · intro hm
        rcases List.mem_cons.mp hm with h1 | h2
        · exact absurd h1 (by decide)
        · exact ih _ hdw h2
      · intro hm
        rcases List.mem_cons.mp hm with h1 | h2
        · exact hc h1.symm
        · exact ih _ hrest h2

theorem dynamicF_no_bs (n : Nat) :
    ∀ l : List Char, '\\' ∉ l → '\\' ∉ dynamicF n l := by
  induction n with
  | zero => intro l h; exact h
  | succ n ih =>
    intro l h
    cases l with
    | nil => simp [dynamicF]
    | cons c rest =>
      have hrest : '\\' ∉ rest := fun hm => h (List.mem_cons_of_mem _ hm)
      have hc : c ≠ '\\' := fun he => h (he ▸ List.mem_cons_self c rest)
      have htw : '\\' ∉ rest.takeWhile (fun x => x ≠ ']') :=
        fun hm => hrest ((List.takeWhile_sublist _).subset hm)
      have hdw : '\\' ∉ (rest.dropWhile (fun x => x ≠ ']')).drop 1 :=
        fun hm => hrest ((List.dropWhile_sublist _).subset
          ((List.drop_sublist _ _).subset hm))
      rw [dynamicF]
      split
      · intro hm
        rcases List.mem_cons.mp hm with h1 | h2
        · exact absurd h1 (by decide)
        · rcases List.mem_append.mp h2 with h3 | h4
          · exact htw h3
          · exact ih _ hdw h4
      · intro hm
        rcases List.mem_cons.mp hm with h1 | h2
        · exact hc h1.symm
        · exact ih _ hrest h2

theorem finishUrl_head (l4 : List Char) :
    (finishUrl l4).data.head? = some '/' := by
  rw [finishUrl]
  by_cases h : l4.head? = some '/'
  · simp only [h, if_pos rfl, if_true]
    split
    · rfl
    · exact h
  · simp only [if_neg h]
    split
    · rfl
    · rfl

theorem finishUrl_no_bs (l4 : List Char) (h : '\\' ∉ l4) :
    '\\' ∉ (finishUrl l4).data := by
  rw [finishUrl]
  by_cases hh : l4.head? = some '/'
  · simp only [hh, if_pos rfl, if_true]
    split
    · decide
    · exact h
  · simp only [if_neg hh]
    split
    · decide
    · intro hm
      rcases List.mem_cons.mp hm with h1 | h2
      · exact absurd h1 (by decide)
      · exact h h2

theorem filePathToUrlPath_head (s : String) :
    (filePathToUrlPath s).data.head? = some '/' := finishUrl_head _

theorem filePathToUrlPath_no_bs (s : String) :
    '\\' ∉ (filePathToUrlPath s).data :=
  finishUrl_no_bs _ (dynamicF_no_bs _ _ (catchAllF_no_bs _ _
    (optCatchAllF_no_bs _ _ (rmGroupsF_no_bs _ _ (normSep_no_bs _)))))

/-! ## Escape round trip for the per-page wrapper -/

theorem escChar_append (c : Char) (rep : List Char) (a b : List Char) :
    escChar c rep (a ++ b) = escChar c rep a ++ escChar c rep b := by
  induction a with
  | nil => rfl
  | cons x r ih => simp [escChar, ih, List.append_assoc]

theorem escAllChars_cons (c : Char) (l : List Char) :
    escAllChars (c :: l) = escapeOne c ++ escAllChars l := by
  show escChar '$' _ (escChar backtick _ (escChar '\\' _ (c :: l))) = _
  have h1 : escChar '\\' ['\\', '\\'] (c :: l)
      = (if c = '\\' then ['\\', '\\'] else [c]) ++ escChar '\\' ['\\', '\\'] l := by
    simp [escChar]
  rw [h1, escChar_append, escChar_append]
  by_cases hb : c = '\\'
  · simp [hb, escapeOne, escChar, backtick, escAllChars]
  · by_cases h2 : c = backtick
    · simp [hb, h2, escapeOne, escChar, backtick, escAllChars]
    · by_cases h3 : c = '$'
      · simp [hb, h2, h3, escapeOne, escChar, backtick, escAllChars]
      · simp [hb, h2, h3, escapeOne, escChar, escAllChars]

theorem unescape_cons_of_ne (c : Char) (h : c ≠ '\\') (l : List Char) :
    unescapeTemplate (c :: l) = c :: unescapeTemplate l := by
  cases l with
  | nil => rfl
  | cons d r => simp [unescapeTemplate, h]

theorem unescape_escAllChars (l : List Char) :
    unescapeTemplate (escAllChars l) = l := by
  induction l with
  | nil => rfl
  | cons c r ih =>
    rw [escAllChars_cons]
    by_cases hs : c = '\\' ∨ c = backtick ∨ c = '$'
    · rw [escapeOne, if_pos hs]
      show unescapeTemplate ('\\' :: c :: escAllChars r) = c :: r
      cases hr : escAllChars r with
      | nil =>
        have h0 : unescapeTemplate [] = r := hr ▸ ih
        simp only [unescapeTemplate] at h0
        subst h0
        simp [unescapeTemplate]
      | cons x xs => simp [unescapeTemplate, hr ▸ ih]
    · rw [escapeOne, if_neg hs]
      have hc : c ≠ '\\' := fun he => hs (Or.inl he)
      show unescapeTemplate (c :: escAllChars r) = c :: r
      rw [unescape_cons_of_ne c hc, ih]

/-- The per-page escaping round-trips: un-escaping the escaped body yields
the original text, for every document text. -/
theorem escapeTemplateText_roundtrip (s : String) :
    unescapeTemplateStr (escapeTemplateText s) = s := by
  cases s with
  | mk data =>
    show (⟨unescapeTemplate (escAllChars data)⟩ : String) = ⟨data⟩
    rw [unescape_escAllChars]

/-! ## Order lemmas for the priority sort -/

theorem lexLeChars_total :
    ∀ a b : List Char, lexLeChars a b = true ∨ lexLeChars b a = true := by
  intro a
  induction a with
  | nil => intro b; exact Or.inl rfl
  | cons x xs ih =>
    intro b
    cases b with
    | nil => exact Or.inr rfl
    | cons y ys =>
      by_cases hxy : x = y
      · subst hxy
        rcases ih ys with h | h
        · left; simpa [lexLeChars] using h
        · right; simpa [lexLeChars] using h
      · rcases lt_or_gt_of_ne hxy with h | h
        · left; simp [lexLeChars, hxy, h]
        · right; simp [lexLeChars, Ne.symm hxy, h]

theorem lexLeChars_trans :
    ∀ a b c : List Char, lexLeChars a b = true → lexLeChars b c = true →
      lexLeChars a c = true := by
  intro a
  induction a with
  | nil => intro b c _ _; rfl
  | cons x xs ih =>
    intro b c hab hbc
    cases b with
    | nil => simp [lexLeChars] at hab
    | cons y ys =>
      cases c with
      | nil => simp [lexLeChars] at hbc
      | cons z zs =>
        by_cases hxy : x = y
        · subst hxy
          by_cases hxz : x = z
          · subst hxz
            simp only [lexLeChars, if_pos rfl] at hab hbc ⊢
            exact ih _ _ hab hbc
          · simp only [lexLeChars, if_neg hxz] at hbc ⊢
            exact hbc
        · by_cases hyz : y = z
          · subst hyz
            simp only [lexLeChars, if_neg hxy] at hab ⊢
            exact hab
          · simp only [lexLeChars, if_neg hxy, if_neg hyz] at hab hbc
            by_cases hxz : x = z
            · subst hxz
              rw [decide_eq_true_iff] at hab hbc
              exact absurd (lt_trans hab hbc) (lt_irrefl x)
            · simp only [lexLeChars, if_neg hxz]
              rw [decide_eq_true_iff] at hab hbc ⊢
              exact lt_trans hab hbc

theorem routeLe_total (m : String → String → Bool) (cwd : String)
    (sources : List ContentSource) :
    ∀ a b : RouteInfo,
      (routeLe m cwd sources a b || routeLe m cwd sources b a) = true := by
  intro a b
  unfold routeLe
  by_cases h : routePriority m cwd sources b < routePriority m cwd sources a
  · simp [h]
  · by_cases h2 : routePriority m cwd sources a < routePriority m cwd sources b
    · simp [h2]
    · have he : routePriority m cwd sources b = routePriority m cwd sources a := by
        omega
      rcases lexLeChars_total a.urlPath.data b.urlPath.data with hl | hl
      · simp [he, lexLe, hl]
      · simp [he, lexLe, hl]

theorem routeLe_trans (m : String → String → Bool) (cwd : String)
    (sources : List ContentSource) :
    ∀ a b c : RouteInfo, routeLe m cwd sources a b = true →
      routeLe m cwd sources b c = true → routeLe m cwd sources a c = true := by
  intro a b c hab hbc
  unfold routeLe at hab hbc ⊢
  simp only [Bool.or_eq_true, Bool.and_eq_true, decide_eq_true_iff, lexLe]
    at hab hbc ⊢
  rcases hab with h1 | h1 <;> rcases hbc with h2 | h2
  · left; omega
  · left; omega
  · left; omega
  · right; exact ⟨by omega, lexLeChars_trans _ _ _ h1.2 h2.2⟩

theorem routePriority_default (m : String → String → Bool) (cwd : String) :
    ∀ (sources : List ContentSource) (r : RouteInfo),
      (∀ s ∈ sources, matchesSource m cwd r s = false) →
      routePriority m cwd sources r = 2 := by
  have haux : ∀ (ss : List ContentSource) (r : RouteInfo) (acc : Nat),
      (∀ s ∈ ss, matchesSource m cwd r s = false) →
      ss.foldl (fun acc s =>
        if matchesSource m cwd r s then priorityMap (s.priority.getD Priority.medium)
        else acc) acc = acc := by
    intro ss
    induction ss with
    | nil => intro r acc _; rfl
    | cons s rest ih =>
      intro r acc hall
      rw [List.foldl_cons,
        if_neg (by simp [hall s (List.mem_cons_self s rest)])]
      exact ih r acc (fun s2 hs2 => hall s2 (List.mem_cons_of_mem _ hs2))
  intro sources r hall
  exact haux sources r 2 hall

/-! ## A data prefix for joined string lists -/

theorem strIntercalate_cons_exists (sep x : String) (rest : List String) :
    ∃ t, (strIntercalate sep (x :: rest)).data = x.data ++ t := by
  cases rest with
  | nil => exact ⟨[], by simp [strIntercalate]⟩
  | cons y ys =>
    refine ⟨sep.data ++ (strIntercalate sep (y :: ys)).data, ?_⟩
    show (x ++ sep ++ strIntercalate sep (y :: ys)).data = _
    rw [String.data_append, String.data_append, List.append_assoc]

/-! ## Association-list lemmas for the section grouping -/

theorem mapGet_cons (p : String × List RouteInfo)
    (rest : List (String × List RouteInfo)) (k : String) :
    mapGet (p :: rest) k = if p.1 = k then some p.2 else mapGet rest k := by
  unfold mapGet
  rw [List.find?_cons]
  by_cases h : p.1 = k
  · rw [beq_iff_eq.mpr h]
    simp [h]
  · rw [beq_eq_false_iff_ne.mpr h]
    simp [h]

theorem mapPush_cons (p : String × List RouteInfo)
    (rest : List (String × List RouteInfo)) (k : String) (r : RouteInfo) :
    mapPush (p :: rest) k r
      = (if p.1 = k then (p.1, p.2 ++ [r]) else p) :: mapPush rest k r := by
  unfold mapPush
  rw [List.map_cons]
  by_cases h : p.1 = k <;> simp [h]

theorem mapGet_mapPush (k k2 : String) (r : RouteInfo) :
    ∀ l : List (String × List RouteInfo),
      mapGet (mapPush l k r) k2
        = (mapGet l k2).map (fun v => if k2 = k then v ++ [r] else v) := by
  intro l
  induction l with
  | nil => rfl
  | cons p rest ih =>
    rw [mapPush_cons]
    by_cases hp : p.1 = k
    · rw [if_pos hp, mapGet_cons, mapGet_cons]
      by_cases h2 : p.1 = k2
      · have hk : k2 = k := by rw [← h2, hp]
        simp [h2, hk]
      · simp only [if_neg h2, ih]
    · rw [if_neg hp, mapGet_cons, mapGet_cons]
      by_cases h2 : p.1 = k2
      · have hk : ¬ k2 = k := fun he => hp (h2.trans he)
        simp [h2, hk]
      · simp only [if_neg h2, ih]

theorem mapGet_none_of_not_mem (k : String) :
    ∀ l : List (String × List RouteInfo),
      k ∉ l.map Prod.fst → mapGet l k = none := by
  intro l
  induction l with
  | nil => intro _; rfl
  | cons p rest ih =>
    intro h
    rw [List.map_cons] at h
    rw [mapGet_cons,
      if_neg (fun he => h (by rw [← he]; exact List.mem_cons_self _ _))]
    exact ih (fun hm => h (List.mem_cons_of_mem _ hm))

theorem mapGet_append (l1 l2 : List (String × List RouteInfo)) (k : String) :
    mapGet (l1 ++ l2) k = (mapGet l1 k).or (mapGet l2 k) := by
  unfold mapGet
  rw [List.find?_append]
  cases List.find? (fun p => p.1 == k) l1 <;> simp

theorem mapGet_map_set_aux (k k2 : String) (v : List RouteInfo) :
    ∀ l : List (String × List RouteInfo),
      mapGet (l.map (fun p => if p.1 == k then (k, v) else p)) k2
        = if k2 = k then (if l.any (fun p => p.1 == k) then some v else none)
          else mapGet l k2 := by
  intro l
  induction l with
  | nil => by_cases h : k2 = k <;> simp [h, mapGet]
  | cons p rest ih =>
    rw [List.map_cons]
    by_cases hp : p.1 = k
    · have hb : (p.1 == k) = true := beq_iff_eq.mpr hp
      rw [if_pos hb, mapGet_cons]
      by_cases h2 : k2 = k
      · rw [if_pos (show (k, v).1 = k2 from h2.symm), if_pos h2,
          if_pos (by simp [List.any_cons, hb])]
      · rw [if_neg (show ¬ (k, v).1 = k2 from fun he => h2 he.symm), ih,
          if_neg h2, if_neg h2, mapGet_cons,
          if_neg (fun he => h2 (by rw [← he, hp]))]
    · have hb : ¬ ((p.1 == k) = true) := by simp [beq_iff_eq, hp]
      rw [if_neg hb, mapGet_cons, ih]
      by_cases h2 : k2 = k
      · rw [if_pos h2, if_pos h2,
          if_neg (fun he : p.1 = k2 => hp (he.trans h2))]
        have hany : (p :: rest).any (fun p => p.1 == k)
            = rest.any (fun p => p.1 == k) := by
          simp [List.any_cons, hb]
        rw [hany]
      · rw [if_neg h2, if_neg h2, mapGet_cons]

theorem mapGet_mapSet (k k2 : String) (v : List RouteInfo)
    (l : List (String × List RouteInfo)) :
    mapGet (mapSet l k v) k2 = if k2 = k then some v else mapGet l k2 := by
  unfold mapSet
  by_cases hany : l.any (fun p => p.1 == k)
  · rw [if_pos hany, mapGet_map_set_aux]
    by_cases h2 : k2 = k
    · simp [h2, hany]
    · simp [h2]
  · rw [if_neg hany, mapGet_append]
    have hknotin : k ∉ l.map Prod.fst := by
      intro hm
      rcases List.mem_map.mp hm with ⟨p, hpmem, hpk⟩
      exact hany (List.any_eq_true.mpr ⟨p, hpmem, beq_iff_eq.mpr hpk⟩)
    by_cases h2 : k2 = k
    · rw [if_pos h2, h2, mapGet_none_of_not_mem k l hknotin]
      show Option.or none (mapGet [(k, v)] k) = some v
      rw [mapGet_cons, if_pos rfl]
      rfl
    · rw [if_neg h2]
      have hsing : mapGet [(k, v)] k2 = none := by
        rw [mapGet_cons, if_neg (fun he => h2 he.symm)]
        rfl
      rw [hsing]
      cases mapGet l k2 <;> rfl

theorem keys_mapPush (k : String) (r : RouteInfo) :
    ∀ l, (mapPush l k r).map Prod.fst = l.map Prod.fst := by
  intro l
  induction l with
  | nil => rfl
  | cons p rest ih =>
    rw [mapPush_cons, List.map_cons, List.map_cons]
    by_cases hp : p.1 = k
    · simp [hp, ih]
    · simp [hp, ih]

theorem keys_map_set_aux (k : String) (v : List RouteInfo) :
    ∀ l : List (String × List RouteInfo),
      ((l.map (fun p => if p.1 == k then (k, v) else p)).map Prod.fst)
        = l.map Prod.fst := by
  intro l
  induction l with
  | nil => rfl
  | cons p rest ih =>
    rw [List.map_cons, List.map_cons, List.map_cons, ih]
    by_cases hp : p.1 = k
    · rw [if_pos (beq_iff_eq.mpr hp)]
      simp [hp]
    · rw [if_neg (by simp [beq_iff_eq, hp])]

theorem keys_mapSet_nodup (k : String) (v : List RouteInfo)
    (l : List (String × List RouteInfo)) (h : (l.map Prod.fst).Nodup) :
    ((mapSet l k v).map Prod.fst).Nodup := by
  unfold mapSet
  by_cases hany : l.any (fun p => p.1 == k)
  · rw [if_pos hany, keys_map_set_aux]
    exact h
  · rw [if_neg hany, List.map_append]
    rw [List.nodup_append]
    refine ⟨h, List.nodup_singleton k, ?_⟩
    intro x hx hxk
    have hxk2 : x = k := List.mem_singleton.mp hxk
    subst hxk2
    rcases List.mem_map.mp hx with ⟨p, hpmem, hpk⟩
    exact hany (List.any_eq_true.mpr ⟨p, hpmem, beq_iff_eq.mpr hpk⟩)

theorem keys_foldl_set_nodup :
    ∀ (sources : List ContentSource) (acc : List (String × List RouteInfo)),
      (acc.map Prod.fst).Nodup →
      ((sources.foldl (fun acc s => mapSet acc s.sectionName []) acc).map
        Prod.fst).Nodup := by
  intro sources
  induction sources with
  | nil => intro acc h; exact h
  | cons s rest ih =>
    intro acc h
    rw [List.foldl_cons]
    exact ih _ (keys_mapSet_nodup _ _ _ h)

theorem keys_foldl_push (m : String → String → Bool) (cwd : String)
    (sources : List ContentSource) :
    ∀ (routes : List RouteInfo) (acc : List (String × List RouteInfo)),
      ((routes.foldl (fun acc route =>
        mapPush acc (sectionOf m cwd sources route) route) acc)).map Prod.fst
        = acc.map Prod.fst := by
  intro routes
  induction routes with
  | nil => intro acc; rfl
  | cons r rest ih =>
    intro acc
    rw [List.foldl_cons, ih, keys_mapPush]

theorem mapGet_foldl_set :
    ∀ (sources : List ContentSource) (acc : List (String × List RouteInfo))
      (k : String),
      mapGet (sources.foldl (fun acc s => mapSet acc s.sectionName []) acc) k
        = if k ∈ sources.map (fun s => s.sectionName) then some []
          else mapGet acc k := by
  intro sources
  induction sources with
  | nil => intro acc k; simp
  | cons s rest ih =>
    intro acc k
    rw [List.foldl_cons, ih, List.map_cons]
    by_cases h1 : k ∈ rest.map (fun s => s.sectionName)
    · rw [if_pos h1, if_pos (List.mem_cons_of_mem _ h1)]
    · rw [if_neg h1, mapGet_mapSet]
      by_cases h2 : k = s.sectionName
      · rw [if_pos h2, if_pos (by rw [h2]; exact List.mem_cons_self _ _)]
      · rw [if_neg h2, if_neg (by
          intro hm
          rcases List.mem_cons.mp hm with h | h
          · exact h2 h
          · exact h1 h)]

theorem mapGet_foldl_push (m : String → String → Bool) (cwd : String)
    (sources : List ContentSource) :
    ∀ (routes : List RouteInfo) (acc : List (String × List RouteInfo))
      (k : String),
      mapGet (routes.foldl (fun acc route =>
        mapPush acc (sectionOf m cwd sources route) route) acc) k
        = (mapGet acc k).map
            (fun v => v ++ routes.filter
              (fun r => sectionOf m cwd sources r == k)) := by
  intro routes
  induction routes with
  | nil =>
    intro acc k
    show mapGet acc k = (mapGet acc k).map
      (fun v => v ++ List.filter (fun r => sectionOf m cwd sources r == k) [])
    cases hm : mapGet acc k <;> simp
  | cons r rest ih =>
    intro acc k
    rw [List.foldl_cons, ih, mapGet_mapPush, List.filter_cons]
    cases hm : mapGet acc k with
    | none => simp
    | some v =>
      simp only [Option.map_some']
      by_cases hk : k = sectionOf m cwd sources r
      · rw [beq_iff_eq.mpr hk.symm]
        simp [hk, List.append_assoc]
      · rw [beq_eq_false_iff_ne.mpr (fun he => hk he.symm)]
        simp [hk]

theorem mapGet_filter_nonempty :
    ∀ l : List (String × List RouteInfo), ((l.map Prod.fst).Nodup) →
      ∀ k, mapGet (l.filter (fun p => !p.2.isEmpty)) k
        = (mapGet l k).bind (fun v => if v.isEmpty then none else some v) := by
  intro l
  induction l with
  | nil => intro _ k; rfl
  | cons p rest ih =>
    intro hnd k
    rw [List.map_cons, List.nodup_cons] at hnd
    obtain ⟨hp, hrest⟩ := hnd
    rw [List.filter_cons]
    by_cases he : p.2.isEmpty
    · rw [if_neg (by simp [he]), mapGet_cons]
      by_cases hk : p.1 = k
      · rw [if_pos hk]
        have hnone : mapGet (rest.filter (fun p => !p.2.isEmpty)) k = none :=
          mapGet_none_of_not_mem k _ (fun hmm =>
            hp (hk ▸ ((List.filter_sublist rest).map Prod.fst).subset hmm))
        rw [hnone]
        simp [List.isEmpty_iff.mp he]
      · rw [if_neg hk, ih hrest k]
    · rw [if_pos (by simp [he]), mapGet_cons, mapGet_cons]
      by_cases hk : p.1 = k
      · rw [if_pos hk, if_pos hk]
        have hne2 : ¬ p.2 = [] := fun hc => he (by rw [hc]; rfl)
        simp [hne2]
      · rw [if_neg hk, if_neg hk, ih hrest k]

/-! ## Path lemmas for the per-page handler path -/

theorem mk_data (s : String) : (⟨s.data⟩ : String) = s := by cases s; rfl

theorem data_eq_nil_iff (s : String) : s.data = [] ↔ s = "" :=
  ⟨fun h => by rw [← mk_data s, h], fun h => by rw [h]⟩

theorem dirname_append_page (x : String) (hx : x ≠ "") :
    dirname (x ++ "/page.tsx") = x := by
  have hd : (x ++ "/page.tsx").data.reverse.dropWhile (fun c => c ≠ '/')
      = '/' :: x.data.reverse := by
    rw [String.data_append]
    have h1 : ("/page.tsx" : String).data = '/' :: "page.tsx".data := rfl
    rw [h1, List.reverse_append, List.reverse_cons, List.append_assoc,
      List.dropWhile_append]
    have h2 : ("page.tsx".data.reverse.dropWhile (fun c => c ≠ '/')) = [] := by
      decide
    rw [h2]
    simp [List.dropWhile_cons]
  rw [dirname, hd]
  have hxd : x.data.reverse ≠ [] := by
    intro h
    exact hx ((data_eq_nil_iff x).mp (by
      have := congrArg List.reverse h
      rwa [List.reverse_reverse] at this))
  cases hr : x.data.reverse with
  | nil => exact absurd hr hxd
  | cons y ys =>
    show (⟨(y :: ys).reverse⟩ : String) = x
    rw [← hr, List.reverse_reverse, mk_data]

theorem pathRelative_self (a : String) : pathRelative a a = "" := by
  rw [pathRelative, if_pos rfl]

theorem pathRelative_under (a rel : String) :
    pathRelative a (a ++ "/" ++ rel) = rel := by
  rw [pathRelative]
  have hne : a ++ "/" ++ rel ≠ a := by
    intro he
    have hlen : (a ++ "/" ++ rel).data.length = a.data.length := by rw [he]
    rw [String.data_append, String.data_append, List.length_append,
      List.length_append] at hlen
    have h1 : ("/" : String).data.length = 1 := rfl
    rw [h1] at hlen
    omega
  rw [if_neg hne]
  rw [if_pos (List.isPrefixOf_iff_prefix.mpr (by
    rw [show (a ++ "/" ++ rel).data = (a ++ "/").data ++ rel.data from
      String.data_append _ _]
    exact List.prefix_append _ _))]
  rw [show (a ++ "/" ++ rel).data = (a ++ "/").data ++ rel.data from
    String.data_append _ _]
  rw [List.drop_left, mk_data]

theorem joinPath_eq (a b : String) (ha : a ≠ "")
    (ha2 : a.data.getLast? ≠ some '/') (hb : b ≠ "") :
    joinPath a b = a ++ "/" ++ b := by
  rw [joinPath, if_neg ha, if_neg hb, if_neg ha2]

theorem append_ne_empty_left (a b : String) (ha : a ≠ "") : a ++ b ≠ "" := by
  intro h
  have hd := (data_eq_nil_iff _).mpr h
  rw [String.data_append] at hd
  exact ha ((data_eq_nil_iff a).mp (List.append_eq_nil.mp hd).1)

theorem rmGroupsF_no_paren (n : Nat) :
    ∀ l : List Char, '(' ∉ l → rmGroupsF n l = l := by
  induction n with
  | zero => intro l _; rfl
  | succ n ih =>
    intro l h
    cases l with
    | nil => rfl
    | cons c rest =>
      have hc : c ≠ '(' := fun he => h (he ▸ List.mem_cons_self c rest)
      have hrest : '(' ∉ rest := fun hm => h (List.mem_cons_of_mem _ hm)
      rw [rmGroupsF, if_neg (fun hand => hc hand.1), ih rest hrest]

theorem splitChar_no_sep (sep : Char) :
    ∀ l : List Char, sep ∉ l → splitChar sep l = [l] := by
  intro l
  induction l with
  | nil => intro _; rfl
  | cons c rest ih =>
    intro h
    have hc : c ≠ sep := fun he => h (he ▸ List.mem_cons_self c rest)
    have hrest : sep ∉ rest := fun hm => h (List.mem_cons_of_mem _ hm)
    rw [splitChar, ih hrest]
    simp [hc]

end NextLLMs

/-- Claim C1 (amended). URL derivation applies, in order: path-separator
normalization to forward slashes, grouping-segment removal, optional
catch-all conversion to a colon parameter, catch-all conversion to a star,
and single dynamic-segment conversion to a colon parameter, so that a
catch-all is never mis-rendered as an optional catch-all or vice versa; the
result always carries a leading slash and contains no backslash; the empty
path maps to exactly the root slash, while the dot path maps to slash-dot
rather than the bare root (see the counterexample); grouping examples both
derive to the about URL. -/
theorem c1_url_derivation :
    (∀ s : String, (NextLLMs.filePathToUrlPath s).data.head? = some '/')
    ∧ (∀ s : String, '\\' ∉ (NextLLMs.filePathToUrlPath s).data)
    ∧ NextLLMs.filePathToUrlPath "" = "/"
    ∧ NextLLMs.filePathToUrlPath "(g)/about" = "/about"
    ∧ NextLLMs.filePathToUrlPath "(g1)/(g2)/about" = "/about"
    ∧ NextLLMs.filePathToUrlPath "[[...slug]]" = "/:slug"
    ∧ NextLLMs.filePathToUrlPath "docs/[...slug]" = "/docs/*"
    ∧ NextLLMs.filePathToUrlPath "[...catchAll]" = "/*"
    ∧ NextLLMs.filePathToUrlPath "products/[id]" = "/products/:id"
    ∧ NextLLMs.filePathToUrlPath "blog/[year]/[slug]" = "/blog/:year/:slug"
    ∧ NextLLMs.filePathToUrlPath "products\\shoes" = "/products/shoes"
    ∧ NextLLMs.filePathToUrlPath "a/[[...opt]]/b/[...rest]/c/[id]"
        = "/a/:opt/b/*/c/:id" :=
  ⟨NextLLMs.filePathToUrlPath_head, NextLLMs.filePathToUrlPath_no_bs,
    by decide, by decide, by decide, by decide, by decide, by decide,
    by decide, by decide, by decide, by decide⟩

/-- Claim C1 counterexample. The claim states that the dot path maps to
exactly the root slash; the code maps it to slash-dot instead: the root
check fires only on the slash-only or empty string, and the dot survives
every transformation pass. -/
theorem c1_dot_counterexample :
    NextLLMs.filePathToUrlPath "." = "/."
    ∧ NextLLMs.filePathToUrlPath "." ≠ "/" := by decide

/-- Claim C5 counterexample. The claim promises that the joined URL never
carries a double slash at the join point regardless of the base; but the
code strips only one trailing slash, so a configured base ending in two
slashes still ends in a slash after stripping, and the join point reads
slash-slash. -/
theorem c5_double_slash_counterexample :
    NextLLMs.buildUrl "products" (some "https://example.com//")
      = "https://example.com//products"
    ∧ (NextLLMs.stripTrailingSlash "https://example.com//").data.getLast?
      = some '/' := by decide

/-- Claim C5 (amended). With no configured base the route path is used
verbatim; with a nonempty base the result is the base with one trailing
slash stripped concatenated with the slash-ensured path; the slash-ensured
path always starts with a slash, and provided the base does not end in a
double slash, the stripped base does not end in a slash, so the join point
carries exactly the one slash contributed by the path. -/
theorem c5_build_url :
    (∀ p : String, NextLLMs.buildUrl p none = p)
    ∧ (∀ p b : String, b ≠ "" → NextLLMs.buildUrl p (some b)
        = NextLLMs.stripTrailingSlash b ++ NextLLMs.ensureLeadingSlash p)
    ∧ (∀ p : String, (NextLLMs.ensureLeadingSlash p).data.head? = some '/')
    ∧ (∀ b : String,
        (b.data.getLast? = some '/' → b.data.dropLast.getLast? ≠ some '/') →
        (NextLLMs.stripTrailingSlash b).data.getLast? ≠ some '/') := by
  refine ⟨fun p => rfl, fun p b hb => ?_, fun p => ?_, fun b hb => ?_⟩
  · rw [NextLLMs.buildUrl, NextLLMs.truthy, if_neg hb]
  · rw [NextLLMs.ensureLeadingSlash]
    by_cases h : p.data.head? = some '/'
    · rw [if_pos h]; exact h
    · rw [if_neg h]; rfl
  · rw [NextLLMs.stripTrailingSlash]
    by_cases h : b.data.getLast? = some '/'
    · rw [if_pos h]; exact hb h
    · rw [if_neg h]; exact h

/-- Claim C5 witness: the amended theorem applied at a base with one
trailing slash and at the no-base case. -/
theorem c5_build_url_witness :
    NextLLMs.buildUrl "/products" (some "https://turbodocx.com/")
      = NextLLMs.stripTrailingSlash "https://turbodocx.com/"
        ++ NextLLMs.ensureLeadingSlash "/products"
    ∧ (NextLLMs.stripTrailingSlash "https://turbodocx.com/").data.getLast?
      ≠ some '/'
    ∧ NextLLMs.buildUrl "/about" none = "/about" :=
  ⟨c5_build_url.2.1 "/products" "https://turbodocx.com/" (by decide),
   c5_build_url.2.2.2 "https://turbodocx.com/" (by decide),
   c5_build_url.1 "/about"⟩


set_option maxRecDepth 8000 in
/-- Claim C6 (code bug in generateRouteHandlerFile). The per-page wrapper
createRouteHandlerContent escapes backslash, backtick, and dollar so its
body un-escapes to the original text, and the three-line example survives
verbatim; but the aggregate-document wrapper generateRouteHandlerFile
escapes only backticks: a document text with a literal backslash-n is
embedded unchanged, and un-escaping that body turns backslash-n into a bare
n, while a dollar sign is embedded unescaped where a template expression
would be evaluated. -/
theorem c6_escaping_bug :
    NextLLMs.generateRouteHandlerFile "Line 1\\nLine 2"
      = NextLLMs.handlerHead ++ "Line 1\\nLine 2" ++ NextLLMs.handlerTailPlain
    ∧ NextLLMs.unescapeTemplateStr "Line 1\\nLine 2" = "Line 1nLine 2"
    ∧ NextLLMs.unescapeTemplateStr "Line 1\\nLine 2" ≠ "Line 1\\nLine 2"
    ∧ NextLLMs.generateRouteHandlerFile "Total: $100"
      = NextLLMs.handlerHead ++ "Total: $100" ++ NextLLMs.handlerTailPlain
    ∧ NextLLMs.createRouteHandlerContent "Line 1\nLine 2\nLine 3"
      = NextLLMs.handlerHead ++ "Line 1\nLine 2\nLine 3"
        ++ NextLLMs.handlerTailMd
    ∧ NextLLMs.unescapeTemplateStr
        (NextLLMs.escapeTemplateText "Line 1\\nLine 2") = "Line 1\\nLine 2"
  := by decide

/-- Claim C7 counterexample. The custom file here lists the same pattern as
both an include and an exclude pattern; under the claimed include and
exclude glob semantics every selected route also matches an exclude pattern
and must be omitted, so the selection would be empty; the code keeps the
route because exclude patterns are never consulted. -/
theorem c7_exclude_ignored_counterexample :
    NextLLMs.filterRoutesForCustomFile [NextLLMs.secretRoute]
        NextLLMs.includeEqualsExcludeFile = [NextLLMs.secretRoute]
    ∧ NextLLMs.filterRoutesForCustomFile [NextLLMs.secretRoute]
        NextLLMs.includeEqualsExcludeFile ≠ [] := by decide

/-- Claim C7 (amended). The route subset of a custom filtered document is
selected by the include patterns alone: a route is kept exactly when its
file path contains, as a plain substring, some include pattern with its
first globstar occurrence removed; the configured exclude patterns have no
effect on the selection. -/
theorem c7_custom_filter :
    ∀ (routes : List NextLLMs.RouteInfo) (cf cf2 : NextLLMs.CustomLLMFile),
      (∀ r, r ∈ NextLLMs.filterRoutesForCustomFile routes cf ↔
        r ∈ routes ∧ cf.includePatterns.any (fun pattern =>
          NextLLMs.containsList r.filePath.data
            (NextLLMs.replaceFirstList "**".data [] pattern.data)) = true)
      ∧ (cf.includePatterns = cf2.includePatterns →
          NextLLMs.filterRoutesForCustomFile routes cf
            = NextLLMs.filterRoutesForCustomFile routes cf2) := by
  intro routes cf cf2
  constructor
  · intro r
    exact List.mem_filter
  · intro h
    rw [NextLLMs.filterRoutesForCustomFile, NextLLMs.filterRoutesForCustomFile, h]

/-- Claim C7 witness: two custom files sharing include patterns but
differing in exclude patterns select the same routes, and membership is the
substring test. -/
theorem c7_custom_filter_witness :
    NextLLMs.filterRoutesForCustomFile [NextLLMs.secretRoute]
        NextLLMs.includeEqualsExcludeFile
      = NextLLMs.filterRoutesForCustomFile [NextLLMs.secretRoute]
        NextLLMs.includeOnlyFile
    ∧ (NextLLMs.secretRoute ∈ NextLLMs.filterRoutesForCustomFile
        [NextLLMs.secretRoute] NextLLMs.includeOnlyFile ↔
        NextLLMs.secretRoute ∈ [NextLLMs.secretRoute]
        ∧ NextLLMs.includeOnlyFile.includePatterns.any (fun pattern =>
          NextLLMs.containsList NextLLMs.secretRoute.filePath.data
            (NextLLMs.replaceFirstList "**".data [] pattern.data)) = true) :=
  ⟨(c7_custom_filter [NextLLMs.secretRoute] NextLLMs.includeEqualsExcludeFile
      NextLLMs.includeOnlyFile).2 rfl,
   (c7_custom_filter [NextLLMs.secretRoute] NextLLMs.includeOnlyFile
      NextLLMs.includeOnlyFile).1 NextLLMs.secretRoute⟩


/-- Claim C3. On both extraction paths, content whose processed length
exceeds the configured maximum (defaulting to fifty thousand) is cut to
exactly the first maximum characters and suffixed with a literal three-dot
ellipsis, and content at or under the maximum is returned untouched; a
parse failure routes through the regex fallback, which applies the
identical truncation rule. -/
theorem c3_truncation :
    ∀ (astExtract : String → Option (List String)) (content : String)
      (options : NextLLMs.ContentOptions),
      (∀ frags, astExtract content = some frags →
        (NextLLMs.strLen (NextLLMs.postProcessExtracted frags)
            > options.maxContentLength.getD 50000 →
          NextLLMs.processContent astExtract content options
            = NextLLMs.strTake (options.maxContentLength.getD 50000)
                (NextLLMs.postProcessExtracted frags) ++ "...")
        ∧ (NextLLMs.strLen (NextLLMs.postProcessExtracted frags)
            ≤ options.maxContentLength.getD 50000 →
          NextLLMs.processContent astExtract content options
            = NextLLMs.postProcessExtracted frags))
      ∧ (astExtract content = none →
        NextLLMs.processContent astExtract content options
          = NextLLMs.fallbackContentExtraction content options)
      ∧ (NextLLMs.strLen (NextLLMs.fallbackExtractedText content)
          > options.maxContentLength.getD 50000 →
        NextLLMs.fallbackContentExtraction content options
          = NextLLMs.strTake (options.maxContentLength.getD 50000)
              (NextLLMs.fallbackExtractedText content) ++ "...")
      ∧ (NextLLMs.strLen (NextLLMs.fallbackExtractedText content)
          ≤ options.maxContentLength.getD 50000 →
        NextLLMs.fallbackContentExtraction content options
          = NextLLMs.fallbackExtractedText content) := by
  intro astExtract content options
  refine ⟨fun frags hf => ⟨fun hgt => ?_, fun hle => ?_⟩,
    fun hn => ?_, fun hgt => ?_, fun hle => ?_⟩
  · unfold NextLLMs.processContent
    rw [hf]
    exact if_pos hgt
  · unfold NextLLMs.processContent
    rw [hf]
    exact if_neg (by omega)
  · unfold NextLLMs.processContent
    rw [hn]
  · unfold NextLLMs.fallbackContentExtraction
    exact if_pos hgt
  · unfold NextLLMs.fallbackContentExtraction
    exact if_neg (by omega)

/-- Claim C3 witness: the truncation theorem applied with a maximum of
three to an over-long fragment, an under-long fragment, and a parse
failure. -/
theorem c3_truncation_witness :
    NextLLMs.processContent (fun _ => some ["abcdef"]) "src"
        { maxContentLength := some 3 }
      = NextLLMs.strTake 3 (NextLLMs.postProcessExtracted ["abcdef"]) ++ "..."
    ∧ NextLLMs.processContent (fun _ => some ["ab"]) "src"
        { maxContentLength := some 3 }
      = NextLLMs.postProcessExtracted ["ab"]
    ∧ NextLLMs.processContent (fun _ => none) "src"
        { maxContentLength := some 3 }
      = NextLLMs.fallbackContentExtraction "src" { maxContentLength := some 3 } :=
  ⟨((c3_truncation (fun _ => some ["abcdef"]) "src"
      { maxContentLength := some 3 }).1 ["abcdef"] rfl).1 (by decide),
   ((c3_truncation (fun _ => some ["ab"]) "src"
      { maxContentLength := some 3 }).1 ["ab"] rfl).2 (by decide),
   (c3_truncation (fun _ => none) "src"
      { maxContentLength := some 3 }).2.1 rfl⟩

/-- Claim C9. The per-page handler path is computed from the route
directory relative to the app directory with grouping segments removed by
the same parenthesis pass as the URL derivation: the root route, whose
relative path is empty, maps to the literal index.html.md directory holding
route.ts; a group-free final segment becomes a segment.html.md directory
holding route.ts; and the general shape follows the split of the stripped
relative path, as the concrete nested, dynamic and grouped examples show. -/
theorem c9_route_handler_path :
    ∀ (appDir rel seg urlP : String) (t : NextLLMs.RouteType),
      appDir ≠ "" → appDir.data.getLast? ≠ some '/' →
      (NextLLMs.getRouteHandlerPath
          { filePath := appDir ++ "/page.tsx", urlPath := urlP, type := t }
          appDir
        = appDir ++ "/" ++ "index.html.md" ++ "/" ++ "route.ts")
      ∧ (NextLLMs.getRouteHandlerPath
          { filePath := appDir ++ "/" ++ rel ++ "/page.tsx", urlPath := urlP,
            type := t } appDir
        = (let q : String :=
             ⟨NextLLMs.rmGroupsF rel.data.length rel.data⟩
           if q = "" ∨ q = "." then
             NextLLMs.joinPath (NextLLMs.joinPath appDir "index.html.md")
               "route.ts"
           else
             let segments := NextLLMs.splitChar '/' q.data
             let lastSegment : List Char := (segments.getLast?).getD []
             let parentPath := segments.dropLast
             NextLLMs.joinPath
               (if parentPath.length > 0 then
                 NextLLMs.joinPath
                   (NextLLMs.joinPath appDir ⟨NextLLMs.joinChar '/' parentPath⟩)
                   ((⟨lastSegment⟩ : String) ++ ".html.md")
               else
                 NextLLMs.joinPath appDir
                   ((⟨lastSegment⟩ : String) ++ ".html.md"))
               "route.ts"))
      ∧ (seg ≠ "" → seg ≠ "." → '(' ∉ seg.data → '/' ∉ seg.data →
        NextLLMs.getRouteHandlerPath
          { filePath := appDir ++ "/" ++ seg ++ "/page.tsx", urlPath := urlP,
            type := t } appDir
        = appDir ++ "/" ++ (seg ++ ".html.md") ++ "/" ++ "route.ts") := by
  intro appDir rel seg urlP t ha ha2
  have hne : ∀ y : String, appDir ++ "/" ++ y ≠ "" := fun y =>
    NextLLMs.append_ne_empty_left _ _
      (NextLLMs.append_ne_empty_left _ _ ha)
  refine ⟨?_, ?_, ?_⟩
  · unfold NextLLMs.getRouteHandlerPath
    dsimp only
    rw [NextLLMs.dirname_append_page appDir ha, NextLLMs.pathRelative_self]
    have h0 : (⟨NextLLMs.rmGroupsF ("" : String).data.length ("" : String).data⟩
        : String) = "" := rfl
    rw [h0]
    rw [if_pos (Or.inl rfl)]
    have hj1 : NextLLMs.joinPath appDir "index.html.md"
        = appDir ++ "/" ++ "index.html.md" :=
      NextLLMs.joinPath_eq _ _ ha ha2 (by decide)
    rw [hj1]
    refine NextLLMs.joinPath_eq _ _ (NextLLMs.append_ne_empty_left _ _
      (NextLLMs.append_ne_empty_left _ _ ha)) ?_ (by decide)
    rw [String.data_append]
    rw [List.getLast?_append_of_ne_nil _ (by decide)]
    decide
  · unfold NextLLMs.getRouteHandlerPath
    dsimp only
    rw [NextLLMs.dirname_append_page _ (hne rel),
      NextLLMs.pathRelative_under appDir rel]
  · intro hs1 hs2 hs3 hs4
    unfold NextLLMs.getRouteHandlerPath
    dsimp only
    rw [NextLLMs.dirname_append_page _ (hne seg),
      NextLLMs.pathRelative_under appDir seg]
    rw [NextLLMs.rmGroupsF_no_paren _ _ hs3, NextLLMs.mk_data]
    rw [if_neg (by
      intro hor
      rcases hor with h1 | h1
      · exact hs1 h1
      · exact hs2 h1)]
    rw [NextLLMs.splitChar_no_sep '/' seg.data hs4]
    show NextLLMs.joinPath
      (NextLLMs.joinPath appDir ((⟨seg.data⟩ : String) ++ ".html.md"))
      "route.ts" = _
    rw [NextLLMs.mk_data]
    have hsegmd : seg ++ ".html.md" ≠ "" :=
      NextLLMs.append_ne_empty_left _ _ hs1
    have hj1 : NextLLMs.joinPath appDir (seg ++ ".html.md")
        = appDir ++ "/" ++ (seg ++ ".html.md") :=
      NextLLMs.joinPath_eq _ _ ha ha2 hsegmd
    rw [hj1]
    refine NextLLMs.joinPath_eq _ _ (NextLLMs.append_ne_empty_left _ _
      (NextLLMs.append_ne_empty_left _ _ ha)) ?_ (by decide)
    rw [String.data_append]
    rw [List.getLast?_append_of_ne_nil _
      (fun hm => hsegmd ((NextLLMs.data_eq_nil_iff _).mp hm))]
    rw [String.data_append]
    rw [List.getLast?_append_of_ne_nil _ (by decide)]
    decide

/-- Claim C9 witness: the handler-path theorem applied at the concrete
app directory and routes of the test suite, with the resulting paths
evaluated. -/
theorem c9_route_handler_path_witness :
    NextLLMs.getRouteHandlerPath
        { filePath := "/test-app/app" ++ "/page.tsx", urlPath := "/",
          type := NextLLMs.RouteType.page } "/test-app/app"
      = "/test-app/app/index.html.md/route.ts"
    ∧ NextLLMs.getRouteHandlerPath
        { filePath := "/test-app/app" ++ "/" ++ "products" ++ "/page.tsx",
          urlPath := "/products", type := NextLLMs.RouteType.page }
        "/test-app/app"
      = "/test-app/app/products.html.md/route.ts"
    ∧ NextLLMs.getRouteHandlerPath
        { filePath := "/test-app/app" ++ "/" ++ "blog/posts/2024"
            ++ "/page.tsx",
          urlPath := "/blog/posts/2024", type := NextLLMs.RouteType.page }
        "/test-app/app"
      = "/test-app/app/blog/posts/2024.html.md/route.ts"
    ∧ NextLLMs.getRouteHandlerPath
        { filePath := "/test-app/app" ++ "/" ++ "products/[id]"
            ++ "/page.tsx",
          urlPath := "/products/:id", type := NextLLMs.RouteType.page }
        "/test-app/app"
      = "/test-app/app/products/[id].html.md/route.ts"
    ∧ NextLLMs.getRouteHandlerPath
        { filePath := "/test-app/app" ++ "/" ++ "(marketing)/products"
            ++ "/page.tsx",
          urlPath := "/products", type := NextLLMs.RouteType.page }
        "/test-app/app"
      = "/test-app/app/products.html.md/route.ts" :=
  ⟨((c9_route_handler_path "/test-app/app" "" "" "/" NextLLMs.RouteType.page
      (by decide) (by decide)).1).trans (by decide),
   ((c9_route_handler_path "/test-app/app" "" "products" "/products"
      NextLLMs.RouteType.page (by decide) (by decide)).2.2 (by decide)
      (by decide) (by decide) (by decide)).trans (by decide),
   ((c9_route_handler_path "/test-app/app" "blog/posts/2024" "" "/blog/posts/2024"
      NextLLMs.RouteType.page (by decide) (by decide)).2.1).trans (by decide),
   ((c9_route_handler_path "/test-app/app" "products/[id]" "" "/products/:id"
      NextLLMs.RouteType.page (by decide) (by decide)).2.1).trans (by decide),
   ((c9_route_handler_path "/test-app/app" "(marketing)/products" "" "/products"
      NextLLMs.RouteType.page (by decide) (by decide)).2.1).trans (by decide)⟩

/-- Claim C2. For every route list, content-source list, working directory
and glob matcher, the sorted output is a permutation of the input arranged
in descending priority blocks: along the output, priorities never increase,
and wherever two neighbors tie the URL paths are in ascending lexicographic
order; a route matching no content-source pattern keeps the default medium
rank of two. -/
theorem c2_sort_priority :
    ∀ (m : String → String → Bool) (cwd : String)
      (routes : List NextLLMs.RouteInfo) (options : NextLLMs.PluginOptions),
      (NextLLMs.sortRoutesByPriority m cwd routes options).Perm routes
      ∧ List.Pairwise (fun a b =>
          NextLLMs.routePriority m cwd (options.sources.getD []) a
            ≥ NextLLMs.routePriority m cwd (options.sources.getD []) b
          ∧ (NextLLMs.routePriority m cwd (options.sources.getD []) a
              = NextLLMs.routePriority m cwd (options.sources.getD []) b →
            NextLLMs.lexLe a.urlPath b.urlPath = true))
          (NextLLMs.sortRoutesByPriority m cwd routes options)
      ∧ (∀ r : NextLLMs.RouteInfo,
          (∀ s ∈ options.sources.getD [],
            NextLLMs.matchesSource m cwd r s = false) →
          NextLLMs.routePriority m cwd (options.sources.getD []) r = 2) := by
  intro m cwd routes options
  refine ⟨List.mergeSort_perm routes _, ?_, ?_⟩
  · have hs := @List.sorted_mergeSort NextLLMs.RouteInfo
      (NextLLMs.routeLe m cwd (options.sources.getD []))
      (NextLLMs.routeLe_trans m cwd (options.sources.getD []))
      (NextLLMs.routeLe_total m cwd (options.sources.getD [])) routes
    refine hs.imp ?_
    intro a b hab
    unfold NextLLMs.routeLe at hab
    simp only [Bool.or_eq_true, Bool.and_eq_true, decide_eq_true_iff] at hab
    rcases hab with h | ⟨h1, h2⟩
    · exact ⟨Nat.le_of_lt h, fun he => absurd h (by omega)⟩
    · exact ⟨Nat.le_of_eq h1, fun _ => h2⟩
  · exact fun r => NextLLMs.routePriority_default m cwd (options.sources.getD []) r

/-- Claim C2 witness: the sort theorem applied at a one-route list with a
matcher that matches nothing, yielding the medium default of two and the
permutation of the singleton. -/
theorem c2_sort_priority_witness :
    NextLLMs.routePriority (fun _ _ => false) "" [] NextLLMs.secretRoute = 2
    ∧ (NextLLMs.sortRoutesByPriority (fun _ _ => false) ""
        [NextLLMs.secretRoute] {}).Perm [NextLLMs.secretRoute] :=
  ⟨(c2_sort_priority (fun _ _ => false) "" [NextLLMs.secretRoute] {}).2.2
      NextLLMs.secretRoute (fun s hs => absurd hs (List.not_mem_nil s)),
    (c2_sort_priority (fun _ _ => false) "" [NextLLMs.secretRoute] {}).1⟩

/-- Claim C8. Missing input is non-fatal and produces nothing for its unit:
a missing root app directory makes discovery return the empty route list
rather than an error; a missing page source file leaves the content absent
and the heading list empty without raising; and enrichment still processes
every route, so the pipeline continues. -/
theorem c8_missing_input :
    (∀ (m : String → String → Bool) (fsRoot : NextLLMs.FsNode)
        (appDir : List String) (options : NextLLMs.PluginOptions),
      NextLLMs.lookupFs fsRoot appDir = none →
      NextLLMs.scanAppDirectory m fsRoot appDir options = Except.ok [])
    ∧ (∀ (astExtract : String → Option (List String))
        (files : String → Option String) (route : NextLLMs.RouteInfo)
        (coptions : NextLLMs.ContentOptions),
      files route.filePath = none →
      NextLLMs.extractPageContent astExtract files route coptions = none)
    ∧ (∀ (parseH : String → Option (List NextLLMs.Heading))
        (files : String → Option String) (route : NextLLMs.RouteInfo),
      files route.filePath = none →
      NextLLMs.extractHeadings parseH files route = [])
    ∧ (∀ (astExtract : String → Option (List String))
        (parseH : String → Option (List NextLLMs.Heading))
        (files : String → Option String) (routes : List NextLLMs.RouteInfo)
        (coptions : NextLLMs.ContentOptions),
      (NextLLMs.enrichRoutesWithContent astExtract parseH files routes
        coptions).length = routes.length) := by
  refine ⟨fun m fsRoot appDir options h => ?_,
    fun astExtract files route coptions h => ?_,
    fun parseH files route h => ?_,
    fun astExtract parseH files routes coptions => ?_⟩
  · unfold NextLLMs.scanAppDirectory
    rw [h]
  · unfold NextLLMs.extractPageContent
    rw [h]
  · unfold NextLLMs.extractHeadings
    rw [h]
  · unfold NextLLMs.enrichRoutesWithContent
    exact List.length_map routes _

/-- Claim C8 witness: the missing-input theorem applied to an empty
filesystem tree and an absent page file. -/
theorem c8_missing_input_witness :
    NextLLMs.scanAppDirectory (fun _ _ => false) (NextLLMs.FsNode.dir [])
        ["test-app", "app"] {} = Except.ok []
    ∧ NextLLMs.extractPageContent (fun _ => none) (fun _ => none)
        NextLLMs.headingOnlyRoute {} = none
    ∧ NextLLMs.extractHeadings (fun _ => none) (fun _ => none)
        NextLLMs.headingOnlyRoute = [] :=
  ⟨c8_missing_input.1 (fun _ _ => false) (NextLLMs.FsNode.dir [])
      ["test-app", "app"] {} rfl,
    c8_missing_input.2.1 (fun _ => none) (fun _ => none)
      NextLLMs.headingOnlyRoute {} rfl,
    c8_missing_input.2.2.1 (fun _ => none) (fun _ => none)
      NextLLMs.headingOnlyRoute rfl⟩

set_option maxRecDepth 8000 in
/-- Claim C10. In the full digest a content-less route contributes no
heading block: its rendered entry is exactly title, URL, optional
description and the separator, with no formatted content block, even when
its heading list is nonempty; the standalone formatter would render the
heading block alone for such a route, and it never returns the empty string
when headings exist. The concrete digest over a route carrying only the
heading Secret Heading never mentions that heading, although the standalone
formatter returns it. -/
theorem c10_headings_need_content :
    (∀ (options : NextLLMs.PluginOptions) (route : NextLLMs.RouteInfo),
      route.content = none →
      NextLLMs.routeEntryParts options route
        = ["### " ++ NextLLMs.getBestTitle route, "",
            "URL: " ++ NextLLMs.buildUrl route.urlPath options.siteUrl, ""]
          ++ (match NextLLMs.getBestDescription route with
              | some d => [d, ""]
              | none => [])
          ++ ["---", ""])
    ∧ (∀ (route : NextLLMs.RouteInfo) (hs : List NextLLMs.Heading),
        route.headings = some hs → hs ≠ [] →
        NextLLMs.formatContentForLLM route ≠ ""
        ∧ (route.content = none →
          NextLLMs.formatContentForLLM route
            = NextLLMs.strIntercalate "\n\n" (hs.map (fun h =>
                (⟨List.replicate h.level '#'⟩ : String) ++ " " ++ h.text))))
    ∧ NextLLMs.containsList
        (NextLLMs.generateLLMsFullTxt [NextLLMs.headingOnlyRoute] {}).data
        "Secret Heading".data = false
    ∧ NextLLMs.formatContentForLLM NextLLMs.headingOnlyRoute
        = "# Secret Heading" := by
  refine ⟨fun options route h => ?_, fun route hs hh hne => ⟨?_, fun hc => ?_⟩,
    by decide, by decide⟩
  · simp [NextLLMs.routeEntryParts, h, NextLLMs.truthy]
  · intro heq
    have hlen : 0 < hs.length := List.length_pos.mpr hne
    obtain ⟨h0, hrest, hhs⟩ : ∃ h0 hrest, hs = h0 :: hrest := by
      cases hs with
      | nil => exact absurd rfl hne
      | cons a l => exact ⟨a, l, rfl⟩
    subst hhs
    unfold NextLLMs.formatContentForLLM at heq
    rw [hh] at heq
    dsimp only at heq
    have hgt : (h0 :: hrest).length > 0 := hlen
    rw [if_pos hgt] at heq
    rw [List.map_cons] at heq
    have hcons : ((⟨List.replicate h0.level '#'⟩ : String) ++ " " ++ h0.text)
        :: (hrest.map (fun h =>
          (⟨List.replicate h.level '#'⟩ : String) ++ " " ++ h.text))
        ++ (match NextLLMs.truthy route.content with
            | some c => [c]
            | none => []) = ((⟨List.replicate h0.level '#'⟩ : String) ++ " "
              ++ h0.text) :: ((hrest.map (fun h =>
                (⟨List.replicate h.level '#'⟩ : String) ++ " " ++ h.text))
              ++ (match NextLLMs.truthy route.content with
                  | some c => [c]
                  | none => [])) := rfl
    rw [hcons] at heq
    obtain ⟨t, ht⟩ := NextLLMs.strIntercalate_cons_exists "\n\n"
      ((⟨List.replicate h0.level '#'⟩ : String) ++ " " ++ h0.text) _
    have hd := congrArg String.data heq
    rw [ht] at hd
    have hlen2 := congrArg List.length hd
    rw [List.length_append, String.data_append, String.data_append,
      List.length_append, List.length_append] at hlen2
    have hone : (" " : String).data.length = 1 := rfl
    rw [hone] at hlen2
    have hzero : ("" : String).data.length = 0 := rfl
    rw [hzero] at hlen2
    omega
  · unfold NextLLMs.formatContentForLLM
    rw [hh, hc]
    dsimp only
    have hgt : hs.length > 0 := List.length_pos.mpr hne
    rw [if_pos hgt]
    simp [NextLLMs.truthy]

/-- Claim C10 witness: the theorem applied at the heading-only route. -/
theorem c10_headings_need_content_witness :
    NextLLMs.routeEntryParts {} NextLLMs.headingOnlyRoute
      = ["### About", "", "URL: /about", "", "---", ""]
    ∧ NextLLMs.formatContentForLLM NextLLMs.headingOnlyRoute ≠ "" :=
  ⟨(c10_headings_need_content.1 {} NextLLMs.headingOnlyRoute rfl).trans
      (by decide),
    (c10_headings_need_content.2.1 NextLLMs.headingOnlyRoute
      [{ level := 1, text := "Secret Heading" }] rfl (by decide)).1⟩

/-- Claim C4. Section grouping is a partition with empty sections dropped:
the resulting section keys are distinct; looking up any section name yields
exactly the input routes whose first matching content source names that
section (with unmatched routes falling to Pages), and yields nothing when
that selection is empty; consequently every section present holds a
nonempty route list and every route appears in exactly the section chosen
by its first match. -/
theorem c4_grouping :
    ∀ (m : String → String → Bool) (cwd : String)
      (routes : List NextLLMs.RouteInfo) (options : NextLLMs.PluginOptions),
      ((NextLLMs.groupRoutesBySection m cwd routes options).map Prod.fst).Nodup
      ∧ (∀ k, NextLLMs.mapGet
            (NextLLMs.groupRoutesBySection m cwd routes options) k
          = (if (routes.filter (fun r =>
                NextLLMs.sectionOf m cwd (options.sources.getD []) r
                  == k)).isEmpty
             then none
             else some (routes.filter (fun r =>
                NextLLMs.sectionOf m cwd (options.sources.getD []) r == k))))
      ∧ (∀ k v, (k, v) ∈ NextLLMs.groupRoutesBySection m cwd routes options →
          v ≠ []) := by
  intro m cwd routes options
  unfold NextLLMs.groupRoutesBySection
  dsimp only
  have hinit : ((List.foldl (fun acc s => NextLLMs.mapSet acc s.sectionName [])
      [("Pages", [])] (options.sources.getD [])).map Prod.fst).Nodup :=
    NextLLMs.keys_foldl_set_nodup (options.sources.getD []) [("Pages", [])]
      (by simp)
  have hassignkeys := NextLLMs.keys_foldl_push m cwd (options.sources.getD [])
    routes ((options.sources.getD []).foldl
      (fun acc s => NextLLMs.mapSet acc s.sectionName []) [("Pages", [])])
  have hnodup : ((routes.foldl (fun acc route =>
      NextLLMs.mapPush acc
        (NextLLMs.sectionOf m cwd (options.sources.getD []) route) route)
      ((options.sources.getD []).foldl
        (fun acc s => NextLLMs.mapSet acc s.sectionName [])
        [("Pages", [])])).map Prod.fst).Nodup := by
    rw [hassignkeys]
    exact hinit
  refine ⟨?_, ?_, ?_⟩
  · exact ((List.filter_sublist _).map Prod.fst).nodup hnodup
  · intro k
    rw [NextLLMs.mapGet_filter_nonempty _ hnodup k,
      NextLLMs.mapGet_foldl_push, NextLLMs.mapGet_foldl_set]
    by_cases hdom : k ∈ (options.sources.getD []).map (fun s => s.sectionName)
    · rw [if_pos hdom]
      simp
    · rw [if_neg hdom, NextLLMs.mapGet_cons]
      by_cases hpg : ("Pages" : String) = k
      · rw [if_pos hpg]
        simp
      · rw [if_neg hpg]
        have hfil : routes.filter (fun r =>
            NextLLMs.sectionOf m cwd (options.sources.getD []) r == k)
            = [] := by
          rw [List.filter_eq_nil_iff]
          intro r _
          simp only [beq_iff_eq]
          intro hesec
          unfold NextLLMs.sectionOf at hesec
          cases hf : (options.sources.getD []).find?
              (fun s => NextLLMs.matchesSource m cwd r s) with
          | some s =>
            rw [hf] at hesec
            have hsec : s.sectionName = k := hesec
            exact hdom (hsec ▸ List.mem_map.mpr
              ⟨s, List.mem_of_find?_eq_some hf, rfl⟩)
          | none =>
            rw [hf] at hesec
            exact hpg hesec
        have h0 : NextLLMs.mapGet [] k = none := rfl
        rw [h0, hfil]
        simp
  · intro k v hmem
    have hpred := (List.mem_filter.mp hmem).2
    intro hv
    rw [hv] at hpred
    simp at hpred

/-- Claim C4 witness: the grouping theorem applied at two routes, one
matched into the Products section by the first source and one falling to
Pages, with the lookups evaluated. -/
theorem c4_grouping_witness :
    NextLLMs.mapGet (NextLLMs.groupRoutesBySection NextLLMs.substrMatcher
        "/my-project" [NextLLMs.secretRoute, NextLLMs.headingOnlyRoute]
        NextLLMs.groupingOptions) "Products" = some [NextLLMs.secretRoute]
    ∧ NextLLMs.mapGet (NextLLMs.groupRoutesBySection NextLLMs.substrMatcher
        "/my-project" [NextLLMs.secretRoute, NextLLMs.headingOnlyRoute]
        NextLLMs.groupingOptions) "Pages" = some [NextLLMs.headingOnlyRoute]
    ∧ [NextLLMs.headingOnlyRoute] ≠ ([] : List NextLLMs.RouteInfo) :=
  ⟨((c4_grouping NextLLMs.substrMatcher "/my-project"
      [NextLLMs.secretRoute, NextLLMs.headingOnlyRoute]
      NextLLMs.groupingOptions).2.1 "Products").trans (by decide),
   ((c4_grouping NextLLMs.substrMatcher "/my-project"
      [NextLLMs.secretRoute, NextLLMs.headingOnlyRoute]
      NextLLMs.groupingOptions).2.1 "Pages").trans (by decide),
   (c4_grouping NextLLMs.substrMatcher "/my-project"
      [NextLLMs.secretRoute, NextLLMs.headingOnlyRoute]
      NextLLMs.groupingOptions).2.2 "Pages" [NextLLMs.headingOnlyRoute]
      (by decide)⟩
